import Mathlib

/-!
System V shared-memory wrappers (`src/shm/shm.c`).

The ten functions of `shm.c` are thin wrappers over the calls `shmget`,
`shmat`, `shmdt`, `shmctl` and over `memcpy` through an attached mapping.
The development has three layers.

* `Sys σ`: the interface the wrappers call, over a state `σ` of the
  operating system.  Every call takes the argument values as they are
  written in the source and returns the value the call returns together with
  the next state.
* The wrappers themselves (`sysv_shm_open` ... `sysv_shm_get_size`), one
  definition per C function, written against an arbitrary `Sys σ`.
* `traced`, which records every call a wrapper issues, and `Kernel`, a
  reference model of the segment table and of the mappings of the calling
  process, used where a property depends on what the operating system does.
-/

namespace Shm

/-! ## Constants of the system headers (`<sys/ipc.h>`, `<sys/shm.h>`, Linux values) -/

def IPC_PRIVATE : Int := 0
def IPC_CREAT : Int := 0o1000
def IPC_EXCL : Int := 0o2000
def IPC_RMID : Int := 0
def IPC_SET : Int := 1
def IPC_STAT : Int := 2
def SHM_LOCK : Int := 11
def SHM_UNLOCK : Int := 12

/-- The null pointer passed as `shmaddr`. -/
def NULL : Nat := 0

abbrev Byte := Fin 256

/-- The fields of `struct shmid_ds` that a stat query fills in. -/
structure shmid_ds where
  shm_perm_key : Int
  shm_perm_mode : Int
  shm_segsz : Nat
  shm_nattch : Nat
deriving DecidableEq, Repr

/-- Conversion of a C `int` to a `w`-bit unsigned integer (`size_t`, or a
pointer obtained by a cast): the value modulo `2^w`. -/
def size_t_of_int (w : Nat) (x : Int) : Nat := (x % (2 : Int) ^ w).toNat

/-- The pointer `(char*)(-1)`, the failure value of `shmat`. -/
def PTR_INVALID (w : Nat) : Nat := size_t_of_int w (-1)

/-- Pointer arithmetic `addr + offset` on a `char*` of `w` bits. -/
def ptr_add (w : Nat) (addr : Nat) (offset : Int) : Nat :=
  (((addr : Int) + offset) % (2 : Int) ^ w).toNat

/-- The operating system as the wrappers see it.  `bits` is the width of
`size_t` and of pointers.  `shmctl` returns, next to its result, what the
call leaves in the `struct shmid_ds` buffer (read by the caller only after a
stat query).  `store` and `load` are the accesses `memcpy` makes to the
address space of the process; `none` is an access with no defined result
(a fault). -/
structure Sys (σ : Type) where
  bits : Nat
  shmget : Int → Int → Int → σ → Int × σ
  shmat : Int → Nat → Int → σ → Nat × σ
  shmdt : Nat → σ → Int × σ
  shmctl : Int → Int → σ → Int × shmid_ds × σ
  store : Nat → List Byte → σ → Option σ
  load : Nat → Nat → σ → Option (List Byte × σ)

/-! ## The wrappers of `shm.c` -/

section Wrappers

variable {σ : Type}

/-- C function `sysv_shm_open` (shm.c:17-32). -/
def sysv_shm_open (os : Sys σ) (size flags perm : Int) (s : σ) : Int × σ :=
  if size ≠ 0 then
    let perm := if perm = 0 then 0o600 else perm
    os.shmget IPC_PRIVATE size (Int.lor flags perm) s
  else
    os.shmget IPC_PRIVATE size 0 s

/-- C function `sysv_shm_open_with_key` (shm.c:35-48). -/
def sysv_shm_open_with_key (os : Sys σ) (key size flags perm : Int) (s : σ) : Int × σ :=
  if size ≠ 0 then
    let perm := if perm = 0 then 0o600 else perm
    os.shmget key size (Int.lor flags perm) s
  else
    os.shmget key size 0 s

/-- C function `sysv_shm_attach` (shm.c:82-85). -/
def sysv_shm_attach (os : Sys σ) (shm_id : Int) (s : σ) : Nat × σ :=
  os.shmat shm_id NULL 0 s

/-- C function `sysv_shm_detach` (shm.c:91-93). -/
def sysv_shm_detach (os : Sys σ) (addr : Nat) (s : σ) : Int × σ :=
  os.shmdt addr s

/-- The call `memcpy(dst, input, n)` with `dst` in the address space of the
process and `input` a caller buffer: reading `n` bytes from a buffer that
holds fewer has no defined result. -/
def memcpy_to (os : Sys σ) (dst : Nat) (input : List Byte) (n : Nat) (s : σ) : Option σ :=
  if n ≤ input.length then os.store dst (input.take n) s else none

/-- The call `memcpy(output, src, n)` with `src` in the address space of the
process and `output` a caller buffer: the first `n` bytes of the buffer are
replaced; a buffer holding fewer than `n` bytes has no defined result. -/
def memcpy_from (os : Sys σ) (output : List Byte) (src : Nat) (n : Nat) (s : σ) :
    Option (List Byte × σ) :=
  if n ≤ output.length then
    match os.load src n s with
    | none => none
    | some (bytes, s1) => some (bytes ++ output.drop n, s1)
  else none

/-- C function `sysv_shm_write` (shm.c:59-76).  `none`: the copy has no
defined result and the function does not return. -/
def sysv_shm_write (os : Sys σ) (shm_id : Int) (input : List Byte) (len offset : Int) (s : σ) :
    Option (Int × σ) :=
  let r := sysv_shm_attach os shm_id s
  if r.1 = PTR_INVALID os.bits then some (-1, r.2)
  else
    match memcpy_to os (ptr_add os.bits r.1 offset) input (size_t_of_int os.bits len) r.2 with
    | none => none
    | some s2 => some (0, (sysv_shm_detach os r.1 s2).2)

/-- C function `sysv_shm_read` (shm.c:103-120).  The result carries the
contents of the `output` buffer after the call. -/
def sysv_shm_read (os : Sys σ) (shm_id : Int) (output : List Byte) (len offset : Int) (s : σ) :
    Option (Int × List Byte × σ) :=
  let r := sysv_shm_attach os shm_id s
  if r.1 = PTR_INVALID os.bits then some (-1, output, r.2)
  else
    match memcpy_from os output (ptr_add os.bits r.1 offset) (size_t_of_int os.bits len) r.2 with
    | none => none
    | some (out, s2) => some (0, out, (sysv_shm_detach os r.1 s2).2)

/-- C function `sysv_shm_lock` (shm.c:126-128). -/
def sysv_shm_lock (os : Sys σ) (shm_id : Int) (s : σ) : Int × σ :=
  let r := os.shmctl shm_id SHM_LOCK s
  (r.1, r.2.2)

/-- C function `sysv_shm_unlock` (shm.c:133-135). -/
def sysv_shm_unlock (os : Sys σ) (shm_id : Int) (s : σ) : Int × σ :=
  let r := os.shmctl shm_id SHM_UNLOCK s
  (r.1, r.2.2)

/-- C function `sysv_shm_close` (shm.c:138-140). -/
def sysv_shm_close (os : Sys σ) (shm_id : Int) (s : σ) : Int × σ :=
  let r := os.shmctl shm_id IPC_RMID s
  (r.1, r.2.2)

/-- C function `sysv_shm_get_size` (shm.c:146-158); `return -1` converts to
`size_t`. -/
def sysv_shm_get_size (os : Sys σ) (shm_id : Int) (s : σ) : Nat × σ :=
  let r := os.shmctl shm_id IPC_STAT s
  if r.1 ≥ 0 then (r.2.1.shm_segsz, r.2.2)
  else (size_t_of_int os.bits (-1), r.2.2)

end Wrappers

/-! ## Recording the calls a wrapper issues -/

/-- One call on the operating system, with its arguments and what it
returned. -/
inductive Ev where
  | shmget (key size shmflg ret : Int)
  | shmat (shmid : Int) (shmaddr : Nat) (shmflg : Int) (ret : Nat)
  | shmdt (addr : Nat) (ret : Int)
  | shmctl (shmid cmd ret : Int)
  | store (dst : Nat) (bytes : List Byte)
  | load (src n : Nat) (bytes : List Byte)
deriving DecidableEq, Repr

/-- The same operating system, keeping a log of the calls made on it. -/
def traced {σ : Type} (os : Sys σ) : Sys (σ × List Ev) where
  bits := os.bits
  shmget key size shmflg st :=
    let r := os.shmget key size shmflg st.1
    (r.1, (r.2, st.2 ++ [Ev.shmget key size shmflg r.1]))
  shmat shmid shmaddr shmflg st :=
    let r := os.shmat shmid shmaddr shmflg st.1
    (r.1, (r.2, st.2 ++ [Ev.shmat shmid shmaddr shmflg r.1]))
  shmdt addr st :=
    let r := os.shmdt addr st.1
    (r.1, (r.2, st.2 ++ [Ev.shmdt addr r.1]))
  shmctl shmid cmd st :=
    let r := os.shmctl shmid cmd st.1
    (r.1, r.2.1, (r.2.2, st.2 ++ [Ev.shmctl shmid cmd r.1]))
  store dst bytes st :=
    match os.store dst bytes st.1 with
    | none => none
    | some s1 => some (s1, st.2 ++ [Ev.store dst bytes])
  load src n st :=
    match os.load src n st.1 with
    | none => none
    | some (bytes, s1) => some (bytes, (s1, st.2 ++ [Ev.load src n bytes]))

/-- An event that reports the failure of its call: `-1` from `shmget`,
`shmdt` and `shmctl`, the invalid pointer from `shmat`. -/
def Ev.failed (w : Nat) : Ev → Bool
  | Ev.shmget _ _ _ ret => decide (ret = -1)
  | Ev.shmat _ _ _ ret => decide (ret = PTR_INVALID w)
  | Ev.shmdt _ ret => decide (ret = -1)
  | Ev.shmctl _ _ ret => decide (ret = -1)
  | Ev.store _ _ => false
  | Ev.load _ _ _ => false

/-- The event is a detach. -/
def Ev.is_shmdt : Ev → Bool
  | Ev.shmdt _ _ => true
  | _ => false

/-! ## Reference model of the operating system

The calls `shmget`, `shmat`, `shmdt`, `shmctl` belong to the operating system
and are not part of the repository.  The model below follows what the
specification says of them: the segment table, the mappings of the calling
process and the rules the calls follow.  Access permissions are not enforced
(the caller is the owner of every segment it creates), other processes are
not modelled, and identifiers are never reused. -/

/-- Modelled from the spec: a segment of the OS-wide table ("an OS-managed
shared memory region, independent of any process's address space"), with its
identifier, its key, its permission bits, the removal mark of the state
`RemovalRequested`, the page-residency lock and its bytes. -/
structure Segment where
  shmid : Int
  key : Int
  mode : Int
  dest : Bool
  locked : Bool
  data : List Byte
deriving DecidableEq, Repr

/-- Modelled from the spec: a mapping ("per-process virtual-address binding of
a segment, created by attach, destroyed by detach"). -/
structure Mapping where
  base : Nat
  shmid : Int
  len : Nat
deriving DecidableEq, Repr

/-- Modelled from the spec: the state of the operating system: the segment
table, the live mappings of the calling process and the next identifier. -/
structure KState where
  segs : List Segment
  maps : List Mapping
  next_id : Nat
deriving DecidableEq, Repr

/-- Modelled from the spec: the limits for which the OS refuses a request
("resource limits, invalid size", "the caller lacks privilege"): the largest
segment size, the largest number of segments, and whether the caller may lock
pages. -/
structure Limits where
  shmmax : Nat
  shmmni : Nat
  can_lock : Bool
deriving DecidableEq, Repr

/-- Smallest segment size. -/
def SHMMIN : Nat := 1
/-- Page size. -/
def PAGE : Nat := 4096
/-- Lowest address at which a segment is mapped. -/
def MAP_BASE : Nat := 0x10000
/-- End of the user address space. -/
def TASK_SIZE : Nat := 0x800000000000

/-- Address range a mapping of `n` bytes occupies: whole pages, more than
`n` bytes. -/
def span (n : Nat) : Nat := (n / PAGE + 1) * PAGE

/-- The range of `n` bytes at `c` does not meet the mapping `m`. -/
def clear_of (c n : Nat) (m : Mapping) : Bool :=
  decide (c + span n ≤ m.base) || decide (m.base + span m.len ≤ c)

/-- Modelled from the spec: the "OS-chosen address" of attach: the first of
`MAP_BASE` and the ends of the live mappings at which `n` bytes fit below
`TASK_SIZE` clear of every live mapping; `none` when the address space is
exhausted. -/
def pick_addr (maps : List Mapping) (n : Nat) : Option Nat :=
  (MAP_BASE :: maps.map (fun m => m.base + span m.len)).find?
    (fun c => decide (c + span n ≤ TASK_SIZE) && maps.all (clear_of c n))

/-- The first segment of the table with the identifier `shmid`. -/
def find_seg (segs : List Segment) (shmid : Int) : Option Segment :=
  segs.find? (fun g => decide (g.shmid = shmid))

/-- The first segment of the table registered under `key`. -/
def find_key (segs : List Segment) (key : Int) : Option Segment :=
  segs.find? (fun g => decide (g.key = key))

/-- Apply `f` to the first segment of the table with the identifier `shmid`. -/
def modify_seg (shmid : Int) (f : Segment → Segment) : List Segment → List Segment
  | [] => []
  | g :: gs => if g.shmid = shmid then f g :: gs else g :: modify_seg shmid f gs

/-- Overwrite `data` from index `off` with `bytes`. -/
def splice (data : List Byte) (off : Nat) (bytes : List Byte) : List Byte :=
  data.take off ++ bytes ++ data.drop (off + bytes.length)

/-- The segment with `bytes` written from index `off`. -/
def put_bytes (off : Nat) (bytes : List Byte) (g : Segment) : Segment :=
  { g with data := splice g.data off bytes }

/-- Number of live mappings of the segment `shmid`. -/
def nattch (maps : List Mapping) (shmid : Int) : Nat :=
  (maps.filter (fun m => decide (m.shmid = shmid))).length

/-- The buffer of a call that fills in nothing. -/
def no_ds : shmid_ds := ⟨0, 0, 0, 0⟩

/-- Modelled from the spec: the creation step of the system call `shmget`
(not in the repository): refused for an invalid size or a full table
("Returns an error if the OS refuses (resource limits, invalid size)"); the new segment is zero-filled and carries the low nine
bits of the flag word as its permissions. -/
def k_create (lim : Limits) (key : Int) (sz : Nat) (shmflg : Int) (s : KState) : Int × KState :=
  if sz < SHMMIN ∨ lim.shmmax < sz then (-1, s)
  else if lim.shmmni ≤ s.segs.length then (-1, s)
  else
    ((s.next_id : Int),
      { s with
        segs := ⟨(s.next_id : Int), key, Int.land shmflg 0o777, false, false,
                  List.replicate sz 0⟩ :: s.segs
        next_id := s.next_id + 1 })

/-- Modelled from the spec: the system call `shmget(key, size, shmflg)` (not
in the repository), with `size` converted to `size_t`: the private key
always creates; another key is looked up, and the segment is created only
when absent and create-if-absent is set ("performs a pure lookup by key (no
creation), failing if absent"); fail-if-exists refuses an existing segment. -/
def k_shmget (lim : Limits) (key size shmflg : Int) (s : KState) : Int × KState :=
  let sz := size_t_of_int 64 size
  if key = IPC_PRIVATE then k_create lim key sz shmflg s
  else
    match find_key s.segs key with
    | some g =>
      if Int.land shmflg IPC_CREAT ≠ 0 ∧ Int.land shmflg IPC_EXCL ≠ 0 then (-1, s)
      else if g.data.length < sz then (-1, s)
      else (g.shmid, s)
    | none =>
      if Int.land shmflg IPC_CREAT ≠ 0 then k_create lim key sz shmflg s else (-1, s)

/-- Modelled from the spec: the system call `shmat(shmid, NULL, 0)` (not in
the repository): "maps the segment into the caller's address space at an
OS-chosen address"; fails on an identifier that names no segment of the table
and on address-space exhaustion.  A segment marked for removal is still in
the table while a mapping of it is live ("Attach/detach may cycle freely
while in Created or RemovalRequested; no attach succeeds once Destroyed").
Only the call the wrappers make, with a null address and no flag, is
modelled. -/
def k_shmat (shmid : Int) (shmaddr : Nat) (shmflg : Int) (s : KState) : Nat × KState :=
  if shmaddr ≠ NULL ∨ shmflg ≠ 0 then (PTR_INVALID 64, s)
  else
    match find_seg s.segs shmid with
    | none => (PTR_INVALID 64, s)
    | some g =>
      match pick_addr s.maps g.data.length with
      | none => (PTR_INVALID 64, s)
      | some c => (c, { s with maps := ⟨c, shmid, g.data.length⟩ :: s.maps })

/-- Modelled from the spec: the system call `shmdt(addr)` (not in the
repository): "Fails with DetachError if the mapping is not currently valid";
a segment marked for removal "is actually freed once the last attached
mapping ... is detached". -/
def k_shmdt (addr : Nat) (s : KState) : Int × KState :=
  match s.maps.find? (fun m => decide (m.base = addr)) with
  | none => (-1, s)
  | some m =>
    let maps1 := s.maps.filter (fun m1 => decide (m1.base ≠ addr))
    let segs1 :=
      match find_seg s.segs m.shmid with
      | none => s.segs
      | some g =>
        if g.dest = true ∧ nattch maps1 m.shmid = 0 then
          s.segs.filter (fun g1 => decide (g1.shmid ≠ m.shmid))
        else s.segs
    (0, { s with maps := maps1, segs := segs1 })

/-- Modelled from the spec: the system call `shmctl(shmid, cmd, buf)` (not in
the repository) for the four commands the wrappers issue; any other command
is refused.  `IPC_RMID` "marks the segment for destruction; the segment is
actually freed once the last attached mapping ... is detached", and its key
is released at once ("the identifier becomes invalid for future creation
lookups under its key"). -/
def k_shmctl (lim : Limits) (shmid cmd : Int) (s : KState) : Int × shmid_ds × KState :=
  match find_seg s.segs shmid with
  | none => (-1, no_ds, s)
  | some g =>
    if cmd = IPC_STAT then
      (0, ⟨g.key, g.mode, g.data.length, nattch s.maps shmid⟩, s)
    else if cmd = IPC_RMID then
      if nattch s.maps shmid = 0 then
        (0, no_ds, { s with segs := s.segs.filter (fun g1 => decide (g1.shmid ≠ shmid)) })
      else
        (0, no_ds,
          { s with
            segs := modify_seg shmid (fun g1 => { g1 with dest := true, key := IPC_PRIVATE }) s.segs })
    else if cmd = SHM_LOCK then
      if lim.can_lock then
        (0, no_ds, { s with segs := modify_seg shmid (fun g1 => { g1 with locked := true }) s.segs })
      else (-1, no_ds, s)
    else if cmd = SHM_UNLOCK then
      if lim.can_lock then
        (0, no_ds, { s with segs := modify_seg shmid (fun g1 => { g1 with locked := false }) s.segs })
      else (-1, no_ds, s)
    else (-1, no_ds, s)

/-- The live mapping through which the `n` bytes at `a` are accessed. -/
def resolve (maps : List Mapping) (a n : Nat) : Option Mapping :=
  maps.find? (fun m => decide (m.base ≤ a) && decide (a + n ≤ m.base + m.len))

/-- Modelled from the spec: memory behind a mapping (kept by the operating
system, not in the repository): a store through a mapping writes the bytes of
the segment "starting at offset"; outside the bytes of a live mapping the
access has no defined result ("will fault or corrupt adjacent mapped
pages"). -/
def k_store (dst : Nat) (bytes : List Byte) (s : KState) : Option KState :=
  match resolve s.maps dst bytes.length with
  | none => none
  | some m =>
    match find_seg s.segs m.shmid with
    | none => none
    | some g =>
      if dst - m.base + bytes.length ≤ g.data.length then
        some { s with segs := modify_seg m.shmid (put_bytes (dst - m.base) bytes) s.segs }
      else none

/-- Modelled from the spec: memory behind a mapping (kept by the operating
system, not in the repository): a load through a mapping reads the bytes of
the segment; outside the bytes of a live mapping it has no defined result. -/
def k_load (src n : Nat) (s : KState) : Option (List Byte × KState) :=
  match resolve s.maps src n with
  | none => none
  | some m =>
    match find_seg s.segs m.shmid with
    | none => none
    | some g =>
      if src - m.base + n ≤ g.data.length then
        some ((g.data.drop (src - m.base)).take n, s)
      else none

/-- Modelled from the spec: the operating system behind the wrappers (not in
the repository), with 64-bit pointers and `size_t`. -/
def Kernel (lim : Limits) : Sys KState where
  bits := 64
  shmget := k_shmget lim
  shmat := k_shmat
  shmdt := k_shmdt
  shmctl := k_shmctl lim
  store := k_store
  load := k_load

/-- The state at boot: no segment, no mapping. -/
def boot : KState := ⟨[], [], 0⟩

/-! ## Sequences of calls -/

/-- One call of a function of `shm.c`, with its arguments. -/
inductive Op where
  | open_private (size flags perm : Int)
  | open_with_key (key size flags perm : Int)
  | attach (shm_id : Int)
  | detach (addr : Nat)
  | write (shm_id : Int) (input : List Byte) (len offset : Int)
  | read (shm_id : Int) (output : List Byte) (len offset : Int)
  | lock (shm_id : Int)
  | unlock (shm_id : Int)
  | close (shm_id : Int)
  | get_size (shm_id : Int)
deriving DecidableEq, Repr

/-- The state after one call; `none` when the call does not return. -/
def Op.run {σ : Type} (os : Sys σ) : Op → σ → Option σ
  | Op.open_private size flags perm, s => some (sysv_shm_open os size flags perm s).2
  | Op.open_with_key key size flags perm, s =>
    some (sysv_shm_open_with_key os key size flags perm s).2
  | Op.attach shm_id, s => some (sysv_shm_attach os shm_id s).2
  | Op.detach addr, s => some (sysv_shm_detach os addr s).2
  | Op.write shm_id input len offset, s =>
    match sysv_shm_write os shm_id input len offset s with
    | none => none
    | some r => some r.2
  | Op.read shm_id output len offset, s =>
    match sysv_shm_read os shm_id output len offset s with
    | none => none
    | some r => some r.2.2
  | Op.lock shm_id, s => some (sysv_shm_lock os shm_id s).2
  | Op.unlock shm_id, s => some (sysv_shm_unlock os shm_id s).2
  | Op.close shm_id, s => some (sysv_shm_close os shm_id s).2
  | Op.get_size shm_id, s => some (sysv_shm_get_size os shm_id s).2

/-- The state after a sequence of calls. -/
def run_ops {σ : Type} (os : Sys σ) : List Op → σ → Option σ
  | [], s => some s
  | op :: ops, s =>
    match op.run os s with
    | none => none
    | some s1 => run_ops os ops s1

/-- Every identifier of the table is below the next identifier. -/
def ids_fresh (s : KState) : Prop := ∀ g ∈ s.segs, g.shmid < (s.next_id : Int)

/-- The segment registered under `key` is the live segment `shmid`, and
`shmid` has been issued. -/
def registered (key shmid : Int) (s : KState) : Prop :=
  ∃ g, find_key s.segs key = some g ∧ find_seg s.segs shmid = some g ∧ g.dest = false ∧
    shmid < (s.next_id : Int)

/-! ## Concrete instances used to exercise the theorems -/

/-- Limits of a small system. -/
def lim0 : Limits := ⟨65536, 8, true⟩

/-- A private segment of four zero bytes with identifier `0` and mode
`0600`. -/
def seg0 : Segment := ⟨0, 0, 0o600, false, false, [0, 0, 0, 0]⟩

/-- The state after `sysv_shm_open(4, 0, 0)` at boot: the segment `seg0`, no
mapping. -/
def st1 : KState := ⟨[seg0], [], 1⟩

/-- The state `st1` after bytes `7, 8` have been written at offset `1`. -/
def st2 : KState := ⟨[⟨0, 0, 0o600, false, false, [0, 7, 8, 0]⟩], [], 1⟩

/-- The state after a segment of four bytes has been created under the key
`5` at boot. -/
def st_key : KState := ⟨[⟨0, 5, 0o600, false, false, [0, 0, 0, 0]⟩], [], 1⟩

/-- A state reached from `st_key`: a private segment was created and removed,
and the byte `7` written to the segment of the key `5`. -/
def st_key_later : KState := ⟨[⟨0, 5, 0o600, false, false, [7, 0, 0, 0]⟩], [], 2⟩

/-- An operating system that refuses every detach, otherwise the reference
model. -/
def no_detach (lim : Limits) : Sys KState :=
  { Kernel lim with shmdt := fun _ s => (-1, s) }

/-! ## Arithmetic of the C conversions -/

theorem size_t_of_int_neg_one (w : Nat) : size_t_of_int w (-1) = 2 ^ w - 1 := by
  unfold size_t_of_int
  have h1 : 1 ≤ 2 ^ w := Nat.one_le_two_pow
  have hc : ((2 : Int) ^ w) = ((2 ^ w : Nat) : Int) := by push_cast; rfl
  rw [hc]
  generalize 2 ^ w = n at h1
  have e : (-1 : Int) = ((n : Int) - 1) + (n : Int) * (-1) := by ring
  rw [e, Int.add_mul_emod_self_left, Int.emod_eq_of_lt (by omega) (by omega)]
  omega

theorem size_t_of_int_nat (w n : Nat) (h : n < 2 ^ w) : size_t_of_int w (n : Int) = n := by
  unfold size_t_of_int
  have hc : ((2 : Int) ^ w) = ((2 ^ w : Nat) : Int) := by push_cast; rfl
  rw [hc, Int.emod_eq_of_lt (by omega) (by omega)]
  simp

theorem ptr_add_nat (w a n : Nat) (h : a + n < 2 ^ w) : ptr_add w a (n : Int) = a + n := by
  unfold ptr_add
  have hc : ((2 : Int) ^ w) = ((2 ^ w : Nat) : Int) := by push_cast; rfl
  rw [hc, Int.emod_eq_of_lt (by omega) (by omega)]
  omega

theorem testBit_384_sub (i : Nat) :
    Nat.testBit 384 i = (Nat.testBit 511 i && Nat.testBit 384 i) := by
  have h : (511 &&& 384 : Nat) = 384 := by decide
  conv_lhs => rw [← h]
  rw [Nat.testBit_and]

theorem nat_or_default_bits (m : Nat) (h : m &&& 511 = 0) : (m ||| 384) &&& 511 = 384 := by
  apply Nat.eq_of_testBit_eq
  intro i
  have hi := congrArg (fun x => Nat.testBit x i) h
  simp only [Nat.testBit_and, Nat.testBit_or, Nat.zero_testBit] at hi ⊢
  rw [testBit_384_sub i]
  cases h1 : Nat.testBit 511 i <;> cases h2 : Nat.testBit m i <;>
    cases h3 : Nat.testBit 384 i <;> simp_all

theorem nat_ldiff_default_bits (m : Nat) (h : Nat.ldiff 511 m = 0) :
    Nat.ldiff 511 (Nat.ldiff m 384) = 384 := by
  apply Nat.eq_of_testBit_eq
  intro i
  have hi := congrArg (fun x => Nat.testBit x i) h
  simp only [Nat.testBit_ldiff, Nat.zero_testBit] at hi ⊢
  rw [testBit_384_sub i]
  cases h1 : Nat.testBit 511 i <;> cases h2 : Nat.testBit m i <;>
    cases h3 : Nat.testBit 384 i <;> simp_all

/-- With none of the low nine bits of `flags` set, OR-ing the default
permission leaves exactly `0600` in the low nine bits (two's complement,
negative `flags` included). -/
theorem default_perm_bits (flags : Int) (h : Int.land flags 0o777 = 0) :
    Int.land (Int.lor flags 0o600) 0o777 = 0o600 := by
  have h511 : (0o777 : Int) = Int.ofNat 511 := rfl
  have h384 : (0o600 : Int) = Int.ofNat 384 := rfl
  rw [h511] at h ⊢
  rw [h384]
  cases flags with
  | ofNat m =>
    simp only [Int.land, Int.lor] at h ⊢
    have h0 : m &&& 511 = 0 := by exact_mod_cast h
    rw [nat_or_default_bits m h0]; rfl
  | negSucc m =>
    simp only [Int.land, Int.lor] at h ⊢
    have h0 : Nat.ldiff 511 m = 0 := by exact_mod_cast h
    rw [nat_ldiff_default_bits m h0]; rfl

/-! ## The create path -/

/-- C4: for a non-zero `size` (negative included), `sysv_shm_open` issues the
single call `shmget(IPC_PRIVATE, size, flags | p)` and
`sysv_shm_open_with_key` the single call `shmget(key, size, flags | p)`, with
`p = perm` when `perm` is not zero and `p = 0600` when it is; each returns the
result of that call unchanged; the private form equals the keyed form at
`IPC_PRIVATE`; and with `perm = 0` and no low-nine bit in `flags` the
permission bits submitted are exactly `0600`. -/
theorem open_submits_request {σ : Type} (os : Sys σ) (key size flags perm : Int) (s : σ)
    (tr : List Ev) (hsize : size ≠ 0) :
    sysv_shm_open os size flags perm s
        = os.shmget IPC_PRIVATE size (Int.lor flags (if perm = 0 then 0o600 else perm)) s ∧
    sysv_shm_open_with_key os key size flags perm s
        = os.shmget key size (Int.lor flags (if perm = 0 then 0o600 else perm)) s ∧
    (sysv_shm_open (traced os) size flags perm (s, tr)).2.2
        = tr ++ [Ev.shmget IPC_PRIVATE size (Int.lor flags (if perm = 0 then 0o600 else perm))
                  (sysv_shm_open os size flags perm s).1] ∧
    (sysv_shm_open_with_key (traced os) key size flags perm (s, tr)).2.2
        = tr ++ [Ev.shmget key size (Int.lor flags (if perm = 0 then 0o600 else perm))
                  (sysv_shm_open_with_key os key size flags perm s).1] ∧
    sysv_shm_open os size flags perm s
        = sysv_shm_open_with_key os IPC_PRIVATE size flags perm s ∧
    (perm = 0 → Int.land flags 0o777 = 0 →
      Int.land (Int.lor flags (if perm = 0 then 0o600 else perm)) 0o777 = 0o600) := by
  refine ⟨?_, ?_, ?_, ?_, ?_, ?_⟩
  · simp [sysv_shm_open, hsize]
  · simp [sysv_shm_open_with_key, hsize]
  · simp [sysv_shm_open, hsize, traced]
  · simp [sysv_shm_open_with_key, hsize, traced]
  · simp [sysv_shm_open, sysv_shm_open_with_key]
  · intro hp hf
    rw [if_pos hp]
    exact default_perm_bits flags hf

/-- C4 at `sysv_shm_open(-4, IPC_CREAT, 0)` on the reference system: the
request carries the flag word `IPC_CREAT | 0600 = 01600`. -/
theorem open_submits_request_witness :
    (-4 : Int) ≠ 0 ∧
    (sysv_shm_open (traced (Kernel lim0)) (-4) IPC_CREAT 0 (boot, [])).2.2
        = [Ev.shmget IPC_PRIVATE (-4) 0o1600 (-1)] :=
  ⟨by decide,
   (open_submits_request (Kernel lim0) 7 (-4) IPC_CREAT 0 boot [] (by decide)).2.2.1.trans
     (by decide)⟩

/-! ## The size query -/

theorem k_shmctl_stat_state (lim : Limits) (shmid : Int) (s : KState) :
    (k_shmctl lim shmid IPC_STAT s).2.2 = s := by
  unfold k_shmctl
  cases find_seg s.segs shmid <;> simp

/-- C7: `sysv_shm_get_size` issues the single call
`shmctl(shm_id, IPC_STAT, &shm)`; when the call returns a value `>= 0` the
result is the `shm_segsz` the call reported, when it returns a negative value
the result is `(size_t)(-1) = 2^w - 1` for a `w`-bit `size_t`; the wrapper
leaves the state as the call left it, and on the reference system the call
leaves the state unchanged. -/
theorem get_size_result {σ : Type} (os : Sys σ) (lim : Limits) (shm_id : Int) (s : σ)
    (tr : List Ev) (ks : KState) :
    (0 ≤ (os.shmctl shm_id IPC_STAT s).1 →
      sysv_shm_get_size os shm_id s
        = ((os.shmctl shm_id IPC_STAT s).2.1.shm_segsz, (os.shmctl shm_id IPC_STAT s).2.2)) ∧
    ((os.shmctl shm_id IPC_STAT s).1 < 0 →
      sysv_shm_get_size os shm_id s
        = (2 ^ os.bits - 1, (os.shmctl shm_id IPC_STAT s).2.2)) ∧
    (sysv_shm_get_size (traced os) shm_id (s, tr)).2.2
        = tr ++ [Ev.shmctl shm_id IPC_STAT (os.shmctl shm_id IPC_STAT s).1] ∧
    (sysv_shm_get_size (Kernel lim) shm_id ks).2 = ks := by
  refine ⟨?_, ?_, ?_, ?_⟩
  · intro h
    simp [sysv_shm_get_size, h]
  · intro h
    have h1 : ¬ (os.shmctl shm_id IPC_STAT s).1 ≥ 0 := by omega
    simp only [sysv_shm_get_size, h1, if_false, size_t_of_int_neg_one]
  · by_cases h : (os.shmctl shm_id IPC_STAT s).1 ≥ 0 <;>
      simp [sysv_shm_get_size, traced, h]
  · have hs := k_shmctl_stat_state lim shm_id ks
    by_cases h : (k_shmctl lim shm_id IPC_STAT ks).1 ≥ 0 <;>
      simp [sysv_shm_get_size, Kernel, h, hs]

/-- C7 on the reference system: the size of the segment `0` of four bytes is
`4`, and the query on the unknown identifier `9` gives `2^64 - 1`. -/
theorem get_size_result_witness :
    sysv_shm_get_size (Kernel lim0) 0 st1 = (4, st1) ∧
    sysv_shm_get_size (Kernel lim0) 9 st1 = (2 ^ 64 - 1, st1) :=
  ⟨((get_size_result (Kernel lim0) lim0 0 st1 [] st1).1 (by decide)).trans (by decide),
   ((get_size_result (Kernel lim0) lim0 9 st1 [] st1).2.1 (by decide)).trans (by decide)⟩


theorem ptr_invalid_64 : PTR_INVALID 64 = 2 ^ 64 - 1 := size_t_of_int_neg_one 64

theorem span_pos (n : Nat) : n < span n := by
  unfold span PAGE
  omega

theorem pick_addr_some {maps : List Mapping} {n c : Nat} (h : pick_addr maps n = some c) :
    c + span n ≤ TASK_SIZE ∧ ∀ m ∈ maps, clear_of c n m = true := by
  unfold pick_addr at h
  have hp := List.find?_some h
  simp only [Bool.and_eq_true, decide_eq_true_eq, List.all_eq_true] at hp
  exact hp

theorem clear_of_base_ne {c n : Nat} {m : Mapping} (h : clear_of c n m = true) : m.base ≠ c := by
  unfold clear_of at h
  simp only [Bool.or_eq_true, decide_eq_true_eq] at h
  have h1 := span_pos n
  have h2 := span_pos m.len
  omega

theorem pick_addr_valid {maps : List Mapping} {n c : Nat} (h : pick_addr maps n = some c) :
    c ≠ PTR_INVALID 64 ∧ c + n < 2 ^ 47 := by
  have h1 := (pick_addr_some h).1
  have h2 := span_pos n
  rw [ptr_invalid_64]
  unfold TASK_SIZE at h1
  omega

/-- The two outcomes of an attach on the reference system. -/
theorem k_shmat_cases (shmid : Int) (s : KState) :
    (k_shmat shmid NULL 0 s = (PTR_INVALID 64, s)) ∨
    (∃ g c, find_seg s.segs shmid = some g ∧ pick_addr s.maps g.data.length = some c ∧
      k_shmat shmid NULL 0 s = (c, { s with maps := ⟨c, shmid, g.data.length⟩ :: s.maps })) := by
  unfold k_shmat
  simp only [ne_eq, not_true_eq_false, or_self, if_false]
  cases hg : find_seg s.segs shmid with
  | none => left; rfl
  | some g =>
    cases hc : pick_addr s.maps g.data.length with
    | none => left; simp [hc]
    | some c => right; exact ⟨g, c, rfl, hc, by simp [hc]⟩

theorem filter_base_ne (maps : List Mapping) (c : Nat) (h : ∀ m ∈ maps, m.base ≠ c) :
    maps.filter (fun m1 => decide (m1.base ≠ c)) = maps := by
  rw [List.filter_eq_self]
  intro m hm
  simpa using h m hm

theorem k_store_frame {dst : Nat} {bytes : List Byte} {s s2 : KState}
    (h : k_store dst bytes s = some s2) : s2.maps = s.maps ∧ s2.next_id = s.next_id := by
  unfold k_store at h
  split at h
  · exact absurd h (by simp)
  · split at h
    · exact absurd h (by simp)
    · split at h
      · simp only [Option.some.injEq] at h
        subst h
        exact ⟨rfl, rfl⟩
      · exact absurd h (by simp)

theorem k_load_frame {src n : Nat} {bytes : List Byte} {s s2 : KState}
    (h : k_load src n s = some (bytes, s2)) : s2 = s := by
  unfold k_load at h
  split at h
  · exact absurd h (by simp)
  · split at h
    · exact absurd h (by simp)
    · split at h
      · simp only [Option.some.injEq, Prod.mk.injEq] at h
        exact h.2.symm
      · exact absurd h (by simp)

/-- Detaching the address an attach has just returned succeeds and restores
the mappings. -/
theorem k_shmdt_after_attach {c : Nat} {shmid : Int} {len : Nat} {maps0 : List Mapping}
    {t : KState} (hm : t.maps = ⟨c, shmid, len⟩ :: maps0) (hc : ∀ m ∈ maps0, m.base ≠ c) :
    (k_shmdt c t).1 = 0 ∧ (k_shmdt c t).2.maps = maps0 ∧
    (k_shmdt c t).2.next_id = t.next_id ∧
    (k_shmdt c t).2.segs =
      (match find_seg t.segs shmid with
       | none => t.segs
       | some g =>
         if g.dest = true ∧ nattch maps0 shmid = 0 then
           t.segs.filter (fun g1 => decide (g1.shmid ≠ shmid))
         else t.segs) := by
  have hf : t.maps.find? (fun m => decide (m.base = c)) = some ⟨c, shmid, len⟩ := by
    rw [hm]; simp
  have hfil : t.maps.filter (fun m1 => decide (m1.base ≠ c)) = maps0 := by
    rw [hm]
    simp only [ne_eq, decide_not, List.filter_cons, decide_True, Bool.not_true]
    simpa using filter_base_ne maps0 c hc
  unfold k_shmdt
  rw [hf]
  simp only [hfil, and_self]

/-! ## Attach failure -/

/-- C2: when the attach fails (returns `(char*)(-1)`), `sysv_shm_write`
returns `-1` having issued the attach and nothing else, neither a copy nor a
detach, whatever `input`, `len` and `offset` are; on the reference system the
state, with the contents of every segment and the live mappings, is the one
before the call. -/
theorem write_attach_failure {σ : Type} (os : Sys σ) (lim : Limits) (shm_id : Int)
    (input : List Byte) (len offset : Int) (s : σ) (ks : KState) (tr : List Ev) :
    ((sysv_shm_attach os shm_id s).1 = PTR_INVALID os.bits →
      sysv_shm_write (traced os) shm_id input len offset (s, tr)
        = some (-1, ((sysv_shm_attach os shm_id s).2,
            tr ++ [Ev.shmat shm_id NULL 0 (PTR_INVALID os.bits)]))) ∧
    ((sysv_shm_attach (Kernel lim) shm_id ks).1 = PTR_INVALID 64 →
      sysv_shm_write (traced (Kernel lim)) shm_id input len offset (ks, tr)
        = some (-1, (ks, tr ++ [Ev.shmat shm_id NULL 0 (PTR_INVALID 64)]))) := by
  have gen : ∀ {τ : Type} (o : Sys τ) (t : τ),
      (sysv_shm_attach o shm_id t).1 = PTR_INVALID o.bits →
      sysv_shm_write (traced o) shm_id input len offset (t, tr)
        = some (-1, ((sysv_shm_attach o shm_id t).2,
            tr ++ [Ev.shmat shm_id NULL 0 (PTR_INVALID o.bits)])) := by
    intro τ o t h
    unfold sysv_shm_attach at h
    simp [sysv_shm_write, sysv_shm_attach, traced, h]
  refine ⟨gen os s, ?_⟩
  intro h
  have h2 := gen (Kernel lim) ks h
  rcases k_shmat_cases shm_id ks with hf | ⟨g, c, _, hc, hs⟩
  · have e : (sysv_shm_attach (Kernel lim) shm_id ks).2 = ks := by
      simp [sysv_shm_attach, Kernel, hf]
    rw [e] at h2
    exact h2
  · have hv := (pick_addr_valid hc).1
    have e : (sysv_shm_attach (Kernel lim) shm_id ks).1 = c := by
      simp [sysv_shm_attach, Kernel, hs]
    rw [e] at h
    exact absurd h hv

/-- C2 on the reference system: a write to the unknown identifier `9`. -/
theorem write_attach_failure_witness :
    (sysv_shm_attach (Kernel lim0) 9 st1).1 = PTR_INVALID 64 ∧
    sysv_shm_write (traced (Kernel lim0)) 9 [1, 2] 2 0 (st1, [])
      = some (-1, (st1, [Ev.shmat 9 NULL 0 (PTR_INVALID 64)])) :=
  ⟨by decide,
   (write_attach_failure (Kernel lim0) lim0 9 [1, 2] 2 0 st1 st1 []).2 (by decide)⟩

/-! ## Mappings across a write or a read -/

theorem write_trace_maps (lim : Limits) (shm_id : Int) (input : List Byte) (len offset : Int)
    (s : KState) (r : Int) (st : KState) (tr : List Ev)
    (h : sysv_shm_write (traced (Kernel lim)) shm_id input len offset (s, []) = some (r, (st, tr))) :
    st.maps = s.maps ∧
    ((r = -1 ∧ tr = [Ev.shmat shm_id NULL 0 (PTR_INVALID 64)]) ∨
     (r = 0 ∧ ∃ a dst bytes, a ≠ PTR_INVALID 64 ∧
        tr = [Ev.shmat shm_id NULL 0 a, Ev.store dst bytes, Ev.shmdt a 0])) := by
  rcases k_shmat_cases shm_id s with hf | ⟨g, c, _, hc, hs⟩
  · simp [sysv_shm_write, sysv_shm_attach, traced, Kernel, hf] at h
    obtain ⟨h1, h2, h3⟩ := h
    subst h1 h2 h3
    exact ⟨rfl, Or.inl ⟨rfl, rfl⟩⟩
  · have hv := (pick_addr_valid hc).1
    simp only [sysv_shm_write, sysv_shm_attach, traced, Kernel, hs, hv, if_false, memcpy_to,
      sysv_shm_detach] at h
    by_cases hn : size_t_of_int 64 len ≤ input.length
    · rw [if_pos hn] at h
      cases hst : k_store (ptr_add 64 c offset) (List.take (size_t_of_int 64 len) input)
          { segs := s.segs, maps := { base := c, shmid := shm_id, len := g.data.length } :: s.maps,
            next_id := s.next_id } with
      | none => rw [hst] at h; exact absurd h (by simp)
      | some s1 =>
        rw [hst] at h
        have hm := (k_store_frame hst).1
        have hd := k_shmdt_after_attach hm
          (fun m hm1 => clear_of_base_ne ((pick_addr_some hc).2 m hm1))
        simp only [Option.some.injEq, Prod.mk.injEq, List.nil_append, List.cons_append,
          hd.1] at h
        obtain ⟨h1, h2, h3⟩ := h
        subst h1 h2 h3
        exact ⟨hd.2.1, Or.inr ⟨rfl, c, _, _, hv, rfl⟩⟩
    · rw [if_neg hn] at h
      exact absurd h (by simp)

theorem read_trace_maps (lim : Limits) (shm_id : Int) (output : List Byte) (len offset : Int)
    (s : KState) (r : Int) (out : List Byte) (st : KState) (tr : List Ev)
    (h : sysv_shm_read (traced (Kernel lim)) shm_id output len offset (s, [])
      = some (r, out, (st, tr))) :
    st.maps = s.maps ∧
    ((r = -1 ∧ tr = [Ev.shmat shm_id NULL 0 (PTR_INVALID 64)]) ∨
     (r = 0 ∧ ∃ a src n bytes, a ≠ PTR_INVALID 64 ∧
        tr = [Ev.shmat shm_id NULL 0 a, Ev.load src n bytes, Ev.shmdt a 0])) := by
  rcases k_shmat_cases shm_id s with hf | ⟨g, c, _, hc, hs⟩
  · simp [sysv_shm_read, sysv_shm_attach, traced, Kernel, hf] at h
    obtain ⟨h1, _, h2, h3⟩ := h
    subst h1 h2 h3
    exact ⟨rfl, Or.inl ⟨rfl, rfl⟩⟩
  · have hv := (pick_addr_valid hc).1
    simp only [sysv_shm_read, sysv_shm_attach, traced, Kernel, hs, hv, if_false, memcpy_from,
      sysv_shm_detach] at h
    by_cases hn : size_t_of_int 64 len ≤ output.length
    · rw [if_pos hn] at h
      cases hst : k_load (ptr_add 64 c offset) (size_t_of_int 64 len)
          { segs := s.segs, maps := { base := c, shmid := shm_id, len := g.data.length } :: s.maps,
            next_id := s.next_id } with
      | none => rw [hst] at h; exact absurd h (by simp)
      | some p =>
        obtain ⟨bytes, s1⟩ := p
        rw [hst] at h
        have hm : s1.maps = _ := congrArg KState.maps (k_load_frame hst)
        have hd := k_shmdt_after_attach hm
          (fun m hm1 => clear_of_base_ne ((pick_addr_some hc).2 m hm1))
        simp only [Option.some.injEq, Prod.mk.injEq, List.nil_append, List.cons_append,
          hd.1] at h
        obtain ⟨h1, _, h2, h3⟩ := h
        subst h1 h2 h3
        exact ⟨hd.2.1, Or.inr ⟨rfl, c, _, _, _, hv, rfl⟩⟩
    · rw [if_neg hn] at h
      exact absurd h (by simp)

/-- C9: on the reference system, whenever `sysv_shm_write` or `sysv_shm_read`
returns, with `0` or with `-1`, the live mappings are those before the call:
on the attach-failure path the only call is the failed attach, and on the
success path the address the attach returned is detached exactly once, and
that detach succeeds. -/
theorem no_mapping_left (lim : Limits) (shm_id : Int) (buf : List Byte) (len offset : Int)
    (s : KState) :
    (∀ r st tr,
      sysv_shm_write (traced (Kernel lim)) shm_id buf len offset (s, []) = some (r, (st, tr)) →
      st.maps = s.maps ∧
      ((r = -1 ∧ tr = [Ev.shmat shm_id NULL 0 (PTR_INVALID 64)]) ∨
       (r = 0 ∧ ∃ a dst bytes, a ≠ PTR_INVALID 64 ∧
          tr = [Ev.shmat shm_id NULL 0 a, Ev.store dst bytes, Ev.shmdt a 0]))) ∧
    (∀ r out st tr,
      sysv_shm_read (traced (Kernel lim)) shm_id buf len offset (s, [])
        = some (r, out, (st, tr)) →
      st.maps = s.maps ∧
      ((r = -1 ∧ tr = [Ev.shmat shm_id NULL 0 (PTR_INVALID 64)]) ∨
       (r = 0 ∧ ∃ a src n bytes, a ≠ PTR_INVALID 64 ∧
          tr = [Ev.shmat shm_id NULL 0 a, Ev.load src n bytes, Ev.shmdt a 0]))) :=
  ⟨fun r st tr h => write_trace_maps lim shm_id buf len offset s r st tr h,
   fun r out st tr h => read_trace_maps lim shm_id buf len offset s r out st tr h⟩

/-- C9 on the reference system: a write of two bytes at offset `1` of the
segment `0`, with no mapping live before the call and none after. -/
theorem no_mapping_left_witness :
    sysv_shm_write (traced (Kernel lim0)) 0 [7, 8] 2 1 (st1, [])
      = some (0, (st2, [Ev.shmat 0 NULL 0 65536, Ev.store 65537 [7, 8], Ev.shmdt 65536 0])) ∧
    st2.maps = st1.maps :=
  ⟨by decide,
   ((no_mapping_left lim0 0 [7, 8] 2 1 st1).1 0 st2
      [Ev.shmat 0 NULL 0 65536, Ev.store 65537 [7, 8], Ev.shmdt 65536 0] (by decide)).1⟩

/-! ## Surfacing of failures -/

/-- C3, as the code has it: each of the eight single-call wrappers returns its
failure value whenever the call it makes reports failure; `sysv_shm_write` and
`sysv_shm_read` return `-1` whenever a call other than their detach reports
failure, and return `0` when none does, whatever their detach reports. -/
theorem failure_surfaced {σ : Type} (os : Sys σ) (key size flags perm shm_id : Int) (addr : Nat)
    (buf : List Byte) (len offset : Int) (s : σ) :
    (∀ ev ∈ (sysv_shm_open (traced os) size flags perm (s, [])).2.2,
      ev.failed os.bits = true → (sysv_shm_open (traced os) size flags perm (s, [])).1 = -1) ∧
    (∀ ev ∈ (sysv_shm_open_with_key (traced os) key size flags perm (s, [])).2.2,
      ev.failed os.bits = true →
      (sysv_shm_open_with_key (traced os) key size flags perm (s, [])).1 = -1) ∧
    (∀ ev ∈ (sysv_shm_attach (traced os) shm_id (s, [])).2.2,
      ev.failed os.bits = true →
      (sysv_shm_attach (traced os) shm_id (s, [])).1 = PTR_INVALID os.bits) ∧
    (∀ ev ∈ (sysv_shm_detach (traced os) addr (s, [])).2.2,
      ev.failed os.bits = true → (sysv_shm_detach (traced os) addr (s, [])).1 = -1) ∧
    (∀ ev ∈ (sysv_shm_lock (traced os) shm_id (s, [])).2.2,
      ev.failed os.bits = true → (sysv_shm_lock (traced os) shm_id (s, [])).1 = -1) ∧
    (∀ ev ∈ (sysv_shm_unlock (traced os) shm_id (s, [])).2.2,
      ev.failed os.bits = true → (sysv_shm_unlock (traced os) shm_id (s, [])).1 = -1) ∧
    (∀ ev ∈ (sysv_shm_close (traced os) shm_id (s, [])).2.2,
      ev.failed os.bits = true → (sysv_shm_close (traced os) shm_id (s, [])).1 = -1) ∧
    (∀ ev ∈ (sysv_shm_get_size (traced os) shm_id (s, [])).2.2,
      ev.failed os.bits = true →
      (sysv_shm_get_size (traced os) shm_id (s, [])).1 = 2 ^ os.bits - 1) ∧
    (∀ r st tr,
      sysv_shm_write (traced os) shm_id buf len offset (s, []) = some (r, (st, tr)) →
      ((∃ ev ∈ tr, ev.failed os.bits = true ∧ ev.is_shmdt = false) → r = -1) ∧
      ((∀ ev ∈ tr, ev.failed os.bits = true → ev.is_shmdt = true) → r = 0)) ∧
    (∀ r out st tr,
      sysv_shm_read (traced os) shm_id buf len offset (s, []) = some (r, out, (st, tr)) →
      ((∃ ev ∈ tr, ev.failed os.bits = true ∧ ev.is_shmdt = false) → r = -1) ∧
      ((∀ ev ∈ tr, ev.failed os.bits = true → ev.is_shmdt = true) → r = 0)) := by
  refine ⟨?_, ?_, ?_, ?_, ?_, ?_, ?_, ?_, ?_, ?_⟩
  · by_cases hz : size = 0 <;> simp [sysv_shm_open, traced, Ev.failed, hz]
  · by_cases hz : size = 0 <;> simp [sysv_shm_open_with_key, traced, Ev.failed, hz]
  · simp [sysv_shm_attach, traced, Ev.failed]
  · simp [sysv_shm_detach, traced, Ev.failed]
  · simp [sysv_shm_lock, traced, Ev.failed]
  · simp [sysv_shm_unlock, traced, Ev.failed]
  · simp [sysv_shm_close, traced, Ev.failed]
  · intro ev hev hf
    by_cases h0 : (os.shmctl shm_id IPC_STAT s).1 ≥ 0
    · simp [sysv_shm_get_size, traced, h0] at hev
      subst hev
      simp [Ev.failed] at hf
      omega
    · simp [sysv_shm_get_size, traced, h0, size_t_of_int_neg_one]
  · intro r st tr h
    by_cases ha : (os.shmat shm_id NULL 0 s).1 = PTR_INVALID os.bits
    · simp [sysv_shm_write, sysv_shm_attach, traced, ha] at h
      obtain ⟨h1, _, h3⟩ := h
      subst h1 h3
      simp [Ev.failed, Ev.is_shmdt]
    · simp only [sysv_shm_write, sysv_shm_attach, traced, ha, if_false, memcpy_to,
        sysv_shm_detach] at h
      by_cases hn : size_t_of_int os.bits len ≤ buf.length
      · rw [if_pos hn] at h
        cases hst : os.store (ptr_add os.bits (os.shmat shm_id NULL 0 s).1 offset)
            (List.take (size_t_of_int os.bits len) buf) (os.shmat shm_id NULL 0 s).2 with
        | none => rw [hst] at h; exact absurd h (by simp)
        | some s1 =>
          rw [hst] at h
          simp only [Option.some.injEq, Prod.mk.injEq, List.nil_append, List.cons_append] at h
          obtain ⟨h1, _, h3⟩ := h
          subst h1 h3
          simp [Ev.failed, Ev.is_shmdt, ha]
      · rw [if_neg hn] at h
        exact absurd h (by simp)
  · intro r out st tr h
    by_cases ha : (os.shmat shm_id NULL 0 s).1 = PTR_INVALID os.bits
    · simp [sysv_shm_read, sysv_shm_attach, traced, ha] at h
      obtain ⟨h1, _, _, h3⟩ := h
      subst h1 h3
      simp [Ev.failed, Ev.is_shmdt]
    · simp only [sysv_shm_read, sysv_shm_attach, traced, ha, if_false, memcpy_from,
        sysv_shm_detach] at h
      by_cases hn : size_t_of_int os.bits len ≤ buf.length
      · rw [if_pos hn] at h
        cases hst : os.load (ptr_add os.bits (os.shmat shm_id NULL 0 s).1 offset)
            (size_t_of_int os.bits len) (os.shmat shm_id NULL 0 s).2 with
        | none => rw [hst] at h; exact absurd h (by simp)
        | some p =>
          obtain ⟨bytes, s1⟩ := p
          rw [hst] at h
          simp only [Option.some.injEq, Prod.mk.injEq, List.nil_append, List.cons_append] at h
          obtain ⟨h1, _, _, h3⟩ := h
          subst h1 h3
          simp [Ev.failed, Ev.is_shmdt, ha]
      · rw [if_neg hn] at h
        exact absurd h (by simp)

/-- C3 on the reference system: a write to the unknown identifier `9` logs a
failed attach and returns `-1`. -/
theorem failure_surfaced_witness :
    sysv_shm_write (traced (Kernel lim0)) 9 [1, 2] 2 0 (st1, [])
      = some (-1, (st1, [Ev.shmat 9 NULL 0 (PTR_INVALID 64)])) ∧
    (∃ ev ∈ [Ev.shmat 9 NULL 0 (PTR_INVALID 64)],
      ev.failed 64 = true ∧ ev.is_shmdt = false) ∧
    (-1 : Int) = -1 :=
  ⟨by decide, ⟨_, List.mem_singleton.mpr rfl, by decide, by decide⟩,
   ((failure_surfaced (Kernel lim0) 0 1 0 0 9 0 [1, 2] 2 0 st1).2.2.2.2.2.2.2.2.1 (-1) st1
      [Ev.shmat 9 NULL 0 (PTR_INVALID 64)] (by decide)).1
      ⟨_, List.mem_singleton.mpr rfl, by decide, by decide⟩⟩

/-- C3 as stated fails: on a system that refuses the detach, `sysv_shm_write`
and `sysv_shm_read` log the failed `shmdt` and return `0`. -/
theorem detach_failure_not_surfaced :
    sysv_shm_write (traced (no_detach lim0)) 0 [7, 8] 2 1 (st1, [])
      = some (0, (⟨st2.segs, [⟨65536, 0, 4⟩], 1⟩,
          [Ev.shmat 0 NULL 0 65536, Ev.store 65537 [7, 8], Ev.shmdt 65536 (-1)])) ∧
    sysv_shm_read (traced (no_detach lim0)) 0 [9, 9] 2 1 (st2, [])
      = some (0, [7, 8], (⟨st2.segs, [⟨65536, 0, 4⟩], 1⟩,
          [Ev.shmat 0 NULL 0 65536, Ev.load 65537 2 [7, 8], Ev.shmdt 65536 (-1)])) ∧
    Ev.failed 64 (Ev.shmdt 65536 (-1)) = true := by
  decide

/-! ## The segment table and the bytes of a segment -/

theorem find_seg_modify_same {f : Segment → Segment} (hf : ∀ x, (f x).shmid = x.shmid)
    {segs : List Segment} {shmid : Int} {g : Segment} (h : find_seg segs shmid = some g) :
    find_seg (modify_seg shmid f segs) shmid = some (f g) := by
  induction segs with
  | nil => simp [find_seg] at h
  | cons x xs ih =>
    unfold find_seg at h ih ⊢
    by_cases hx : x.shmid = shmid
    · simp only [List.find?_cons, hx, decide_True] at h
      simp only [Option.some.injEq] at h
      subst h
      simp [modify_seg, hx, hf]
    · simp only [List.find?_cons, hx, decide_False] at h
      simp [modify_seg, hx, ih h]

theorem find_seg_modify_other {f : Segment → Segment} (hf : ∀ x, (f x).shmid = x.shmid)
    (segs : List Segment) {shmid other : Int} (hne : other ≠ shmid) :
    find_seg (modify_seg shmid f segs) other = find_seg segs other := by
  induction segs with
  | nil => rfl
  | cons x xs ih =>
    unfold find_seg at ih ⊢
    by_cases hx : x.shmid = shmid
    · have hxo : ¬ x.shmid = other := by rw [hx]; exact fun e => hne e.symm
      have hfo : ¬ (f x).shmid = other := by rw [hf]; exact hxo
      simp only [modify_seg, hx, if_true]
      rw [List.find?_cons, List.find?_cons]
      simp [hfo, hxo]
    · by_cases hxo : x.shmid = other
      · simp only [modify_seg, hx, if_false]
        rw [List.find?_cons, List.find?_cons]
        simp [hxo]
      · simp [modify_seg, hx, hxo, ih]

theorem length_splice (d : List Byte) (off : Nat) (bs : List Byte)
    (h : off + bs.length ≤ d.length) : (splice d off bs).length = d.length := by
  unfold splice
  simp only [List.length_append, List.length_take, List.length_drop]
  omega

theorem take_drop_splice (d : List Byte) (off : Nat) (bs : List Byte) (h : off ≤ d.length) :
    ((splice d off bs).drop off).take bs.length = bs := by
  unfold splice
  have hl : (List.take off d).length = off := by simp; omega
  rw [List.append_assoc, List.drop_append_of_le_length (by omega)]
  rw [List.drop_of_length_le (by omega), List.nil_append, List.take_append_of_le_length (le_refl _)]
  simp

/-- An attach that succeeds found the segment and an address for it. -/
theorem attach_ok {lim : Limits} {shmid : Int} {s : KState} {g : Segment}
    (hg : find_seg s.segs shmid = some g)
    (hat : (sysv_shm_attach (Kernel lim) shmid s).1 ≠ PTR_INVALID 64) :
    ∃ c, pick_addr s.maps g.data.length = some c ∧
      k_shmat shmid NULL 0 s = (c, { s with maps := ⟨c, shmid, g.data.length⟩ :: s.maps }) := by
  rcases k_shmat_cases shmid s with hf | ⟨g1, c, hg1, hc, hs⟩
  · exact absurd (by simp [sysv_shm_attach, Kernel, hf]) hat
  · rw [hg] at hg1
    simp only [Option.some.injEq] at hg1
    subst hg1
    exact ⟨c, hc, hs⟩

/-- A write of `n` bytes at `off` inside a live segment returns `0` and
changes the bytes of that segment only. -/
theorem k_write_ok (lim : Limits) (s : KState) (shmid : Int) (g : Segment) (input : List Byte)
    (n off : Nat) (hg : find_seg s.segs shmid = some g) (hd : g.dest = false)
    (hat : (sysv_shm_attach (Kernel lim) shmid s).1 ≠ PTR_INVALID 64)
    (hn : n ≤ input.length) (hr : off + n ≤ g.data.length) :
    sysv_shm_write (Kernel lim) shmid input (n : Int) (off : Int) s
      = some (0, { s with segs := modify_seg shmid (put_bytes off (input.take n)) s.segs }) := by
  obtain ⟨c, hc, hs⟩ := attach_ok hg hat
  have hv := pick_addr_valid hc
  have hsz : size_t_of_int 64 (n : Int) = n := size_t_of_int_nat 64 n (by omega)
  have hpa : ptr_add 64 c (off : Int) = c + off := ptr_add_nat 64 c off (by omega)
  have hlen : (List.take n input).length = n := by simp; omega
  have hst : k_store (c + off) (List.take n input)
      { s with maps := ⟨c, shmid, g.data.length⟩ :: s.maps }
      = some (⟨modify_seg shmid (put_bytes off (input.take n)) s.segs,
          ⟨c, shmid, g.data.length⟩ :: s.maps, s.next_id⟩ : KState) := by
    unfold k_store resolve
    have hh : (decide (c ≤ c + off) && decide (c + off + n ≤ c + g.data.length)) = true := by
      simp; omega
    simp only [hlen, List.find?_cons, hh, hg]
    have e : c + off - c = off := by omega
    simp only [e]
    rw [if_pos (by omega)]
  have hfs := find_seg_modify_same (f := put_bytes off (input.take n)) (fun _ => rfl) hg
  have hdt := k_shmdt_after_attach
    (t := (⟨modify_seg shmid (put_bytes off (input.take n)) s.segs,
          ⟨c, shmid, g.data.length⟩ :: s.maps, s.next_id⟩ : KState))
    rfl (fun m hm1 => clear_of_base_ne ((pick_addr_some hc).2 m hm1))
  have hpd : (put_bytes off (input.take n) g).dest = false := hd
  simp only [hfs, hpd, Bool.false_eq_true, false_and, if_false] at hdt
  have hfin : (k_shmdt c (⟨modify_seg shmid (put_bytes off (input.take n)) s.segs,
          ⟨c, shmid, g.data.length⟩ :: s.maps, s.next_id⟩ : KState)).2
      = { s with segs := modify_seg shmid (put_bytes off (input.take n)) s.segs } := by
    generalize k_shmdt c _ = r at hdt
    obtain ⟨_, ⟨sg, mp, ni⟩⟩ := r
    simp only at hdt
    obtain ⟨_, h2, h3, h4⟩ := hdt
    subst h2 h3 h4
    rfl
  simp only [sysv_shm_write, sysv_shm_attach, Kernel, hs, hv.1, if_false, memcpy_to, hsz, hn,
    if_true, hpa, hst, sysv_shm_detach, hfin]

/-- A read of `n` bytes at `off` inside a live segment returns `0`, puts the
bytes of the segment at the head of the buffer and changes nothing. -/
theorem k_read_ok (lim : Limits) (s : KState) (shmid : Int) (g : Segment) (output : List Byte)
    (n off : Nat) (hg : find_seg s.segs shmid = some g) (hd : g.dest = false)
    (hat : (sysv_shm_attach (Kernel lim) shmid s).1 ≠ PTR_INVALID 64)
    (hn : n ≤ output.length) (hr : off + n ≤ g.data.length) :
    sysv_shm_read (Kernel lim) shmid output (n : Int) (off : Int) s
      = some (0, (g.data.drop off).take n ++ output.drop n, s) := by
  obtain ⟨c, hc, hs⟩ := attach_ok hg hat
  have hv := pick_addr_valid hc
  have hsz : size_t_of_int 64 (n : Int) = n := size_t_of_int_nat 64 n (by omega)
  have hpa : ptr_add 64 c (off : Int) = c + off := ptr_add_nat 64 c off (by omega)
  have hst : k_load (c + off) n (⟨s.segs, ⟨c, shmid, g.data.length⟩ :: s.maps, s.next_id⟩ : KState)
      = some ((g.data.drop off).take n,
          (⟨s.segs, ⟨c, shmid, g.data.length⟩ :: s.maps, s.next_id⟩ : KState)) := by
    unfold k_load resolve
    have hh : (decide (c ≤ c + off) && decide (c + off + n ≤ c + g.data.length)) = true := by
      simp; omega
    simp only [List.find?_cons, hh, hg]
    have e : c + off - c = off := by omega
    simp only [e]
    rw [if_pos (by omega)]
  have hdt := k_shmdt_after_attach
    (t := (⟨s.segs, ⟨c, shmid, g.data.length⟩ :: s.maps, s.next_id⟩ : KState))
    rfl (fun m hm1 => clear_of_base_ne ((pick_addr_some hc).2 m hm1))
  simp only [hg, hd, Bool.false_eq_true, false_and, if_false] at hdt
  have hfin : (k_shmdt c (⟨s.segs, ⟨c, shmid, g.data.length⟩ :: s.maps, s.next_id⟩ : KState)).2
      = s := by
    generalize k_shmdt c _ = r at hdt
    obtain ⟨_, ⟨sg, mp, ni⟩⟩ := r
    simp only at hdt
    obtain ⟨_, h2, h3, h4⟩ := hdt
    subst h2 h3 h4
    rfl
  simp only [sysv_shm_read, sysv_shm_attach, Kernel, hs, hv.1, if_false, memcpy_from, hsz, hn,
    if_true, hpa, hst, sysv_shm_detach, hfin]

/-- Writing inside a segment leaves an attach of it as it was. -/
theorem attach_after_put (lim : Limits) (s : KState) (shmid : Int) (g : Segment) (off : Nat)
    (bytes : List Byte) (hg : find_seg s.segs shmid = some g)
    (hr : off + bytes.length ≤ g.data.length)
    (hat : (sysv_shm_attach (Kernel lim) shmid s).1 ≠ PTR_INVALID 64) :
    (sysv_shm_attach (Kernel lim) shmid
      (⟨modify_seg shmid (put_bytes off bytes) s.segs, s.maps, s.next_id⟩ : KState)).1
      ≠ PTR_INVALID 64 := by
  obtain ⟨c, hc, _⟩ := attach_ok hg hat
  have hfs := find_seg_modify_same (f := put_bytes off bytes) (fun _ => rfl) hg
  have hl : (put_bytes off bytes g).data.length = g.data.length := length_splice _ _ _ hr
  have : k_shmat shmid NULL 0 (⟨modify_seg shmid (put_bytes off bytes) s.segs, s.maps, s.next_id⟩ : KState)
      = (c, ⟨modify_seg shmid (put_bytes off bytes) s.segs,
              ⟨c, shmid, g.data.length⟩ :: s.maps, s.next_id⟩) := by
    unfold k_shmat
    simp [hfs, hl, hc]
  simp only [sysv_shm_attach, Kernel, this]
  exact (pick_addr_valid hc).1

/-! ## Round trip -/

/-- C1: for a buffer `B` and an identifier that names a live segment of size
`len(B)` on which attach succeeds, `sysv_shm_write(id, B, len(B), 0)` returns
`0`, and the following `sysv_shm_read(id, out, len(B), 0)` into a buffer of
`len(B)` bytes returns `0` and leaves `out` equal to `B`. -/
theorem write_read_round_trip (lim : Limits) (s : KState) (shm_id : Int) (g : Segment)
    (B out : List Byte) (hg : find_seg s.segs shm_id = some g) (hlive : g.dest = false)
    (hsize : g.data.length = B.length) (hout : out.length = B.length)
    (hat : (sysv_shm_attach (Kernel lim) shm_id s).1 ≠ PTR_INVALID 64) :
    sysv_shm_write (Kernel lim) shm_id B (B.length : Int) 0 s
      = some (0, ⟨modify_seg shm_id (put_bytes 0 B) s.segs, s.maps, s.next_id⟩) ∧
    sysv_shm_read (Kernel lim) shm_id out (B.length : Int) 0
        ⟨modify_seg shm_id (put_bytes 0 B) s.segs, s.maps, s.next_id⟩
      = some (0, B, ⟨modify_seg shm_id (put_bytes 0 B) s.segs, s.maps, s.next_id⟩) := by
  have hw := k_write_ok lim s shm_id g B B.length 0 hg hlive hat (le_refl _) (by omega)
  rw [List.take_length] at hw
  have hfs := find_seg_modify_same (f := put_bytes 0 B) (fun _ => rfl) hg
  have hat1 := attach_after_put lim s shm_id g 0 B hg (by omega) hat
  have hl : (put_bytes 0 B g).data.length = g.data.length := length_splice _ _ _ (by omega)
  have hr := k_read_ok lim (⟨modify_seg shm_id (put_bytes 0 B) s.segs, s.maps, s.next_id⟩ : KState)
    shm_id (put_bytes 0 B g) out B.length 0 hfs hlive hat1 (by omega) (by omega)
  have hb : List.take B.length (List.drop 0 (put_bytes 0 B g).data) ++ List.drop B.length out
      = B := by
    have h1 := take_drop_splice g.data 0 B (by omega)
    have h2 : List.drop B.length out = [] := List.drop_of_length_le (by omega)
    rw [h2, List.append_nil]
    exact h1
  rw [hb] at hr
  exact ⟨hw, hr⟩

/-- The segment of `st1`. -/
theorem find_seg_st1 : find_seg st1.segs 0 = some seg0 := by
  decide

/-- C1 on the reference system: four bytes written to the segment `0` of
`st1` and read back. -/
theorem write_read_round_trip_witness :
    find_seg st1.segs 0 = some seg0 ∧ seg0.dest = false ∧
    seg0.data.length = ([1, 2, 3, 4] : List Byte).length ∧
    (sysv_shm_attach (Kernel lim0) 0 st1).1 ≠ PTR_INVALID 64 ∧
    sysv_shm_write (Kernel lim0) 0 [1, 2, 3, 4] 4 0 st1
      = some (0, ⟨[⟨0, 0, 0o600, false, false, [1, 2, 3, 4]⟩], [], 1⟩) ∧
    sysv_shm_read (Kernel lim0) 0 [0, 0, 0, 0] 4 0
        ⟨[⟨0, 0, 0o600, false, false, [1, 2, 3, 4]⟩], [], 1⟩
      = some (0, [1, 2, 3, 4], ⟨[⟨0, 0, 0o600, false, false, [1, 2, 3, 4]⟩], [], 1⟩) :=
  ⟨find_seg_st1, rfl, rfl, by decide,
   write_read_round_trip lim0 st1 0 seg0 [1, 2, 3, 4] [0, 0, 0, 0] find_seg_st1 rfl rfl rfl
     (by decide)⟩

/-! ## Writes to disjoint ranges -/

theorem size_t_of_int_pos (size : Int) (h0 : 0 < size) (h1 : size < 2 ^ 31) :
    size_t_of_int 64 size = size.toNat := by
  unfold size_t_of_int
  rw [Int.emod_eq_of_lt (by omega) (by omega)]

/-- C6: for a size `0 < size <= INT_MAX` within the limit on the segment size,
with room in the segment table, `sysv_shm_open(size, 0, 0)` returns an
identifier that is not `-1`, and `sysv_shm_get_size` of that identifier in the
resulting state returns exactly `size`. -/
theorem create_then_get_size (lim : Limits) (s : KState) (size : Int) (h0 : 0 < size)
    (h1 : size < 2 ^ 31) (hmax : size ≤ (lim.shmmax : Int))
    (hroom : s.segs.length < lim.shmmni) :
    (sysv_shm_open (Kernel lim) size 0 0 s).1 ≠ -1 ∧
    ((sysv_shm_get_size (Kernel lim) (sysv_shm_open (Kernel lim) size 0 0 s).1
        (sysv_shm_open (Kernel lim) size 0 0 s).2).1 : Int) = size := by
  have hsz := size_t_of_int_pos size h0 h1
  have hne : size ≠ 0 := by omega
  have hc1 : ¬ (size.toNat < SHMMIN ∨ lim.shmmax < size.toNat) := by
    unfold SHMMIN; omega
  have hc2 : ¬ lim.shmmni ≤ s.segs.length := by omega
  have ho : sysv_shm_open (Kernel lim) size 0 0 s
      = ((s.next_id : Int),
          ⟨⟨(s.next_id : Int), IPC_PRIVATE, Int.land (Int.lor 0 0o600) 0o777, false, false,
              List.replicate size.toNat 0⟩ :: s.segs, s.maps, s.next_id + 1⟩) := by
    simp only [sysv_shm_open, Kernel, hne, ne_eq, not_false_eq_true, if_true, k_shmget, hsz,
      k_create, hc1, hc2, if_false]
  rw [ho]
  refine ⟨by omega, ?_⟩
  simp only [sysv_shm_get_size, Kernel, k_shmctl, find_seg, List.find?_cons, decide_True,
    if_true, ge_iff_le, le_refl, List.length_replicate]
  omega

/-- C6 on the reference system at boot with `size = 4`. -/
theorem create_then_get_size_witness :
    (0 : Int) < 4 ∧ (4 : Int) < 2 ^ 31 ∧ (4 : Int) ≤ (lim0.shmmax : Int) ∧
    boot.segs.length < lim0.shmmni ∧
    (sysv_shm_open (Kernel lim0) 4 0 0 boot).1 ≠ -1 ∧
    ((sysv_shm_get_size (Kernel lim0) (sysv_shm_open (Kernel lim0) 4 0 0 boot).1
        (sysv_shm_open (Kernel lim0) 4 0 0 boot).2).1 : Int) = 4 :=
  ⟨by decide, by decide, by decide, by decide,
   create_then_get_size lim0 boot 4 (by decide) (by decide) (by decide) (by decide)⟩

/-! ## What every call preserves -/

/-- A property of the state kept by each call of the reference system is kept
by each function of `shm.c`. -/
theorem run_preserves (lim : Limits) (Inv : KState → Prop) (R : Int → Prop)
    (hget : ∀ key size flg s, Inv s → Inv (k_shmget lim key size flg s).2)
    (hat : ∀ shmid s, Inv s → Inv (k_shmat shmid NULL 0 s).2)
    (hdt : ∀ a s, Inv s → Inv (k_shmdt a s).2)
    (hctl : ∀ shmid cmd s, (cmd = IPC_RMID → R shmid) → Inv s → Inv (k_shmctl lim shmid cmd s).2.2)
    (hst : ∀ dst bytes s s1, k_store dst bytes s = some s1 → Inv s → Inv s1)
    (op : Op) (hop : ∀ i, op = Op.close i → R i)
    (s s1 : KState) (hrun : op.run (Kernel lim) s = some s1) (hs : Inv s) : Inv s1 := by
  cases op with
  | open_private size flags perm =>
    simp only [Op.run, Option.some.injEq] at hrun
    subst hrun
    simp only [sysv_shm_open, Kernel]
    split <;> exact hget _ _ _ _ hs
  | open_with_key key size flags perm =>
    simp only [Op.run, Option.some.injEq] at hrun
    subst hrun
    simp only [sysv_shm_open_with_key, Kernel]
    split <;> exact hget _ _ _ _ hs
  | attach shm_id =>
    simp only [Op.run, Option.some.injEq] at hrun
    subst hrun
    exact hat _ _ hs
  | detach addr =>
    simp only [Op.run, Option.some.injEq] at hrun
    subst hrun
    exact hdt _ _ hs
  | write shm_id input len offset =>
    simp only [Op.run] at hrun
    cases hw : sysv_shm_write (Kernel lim) shm_id input len offset s with
    | none => rw [hw] at hrun; exact absurd hrun (by simp)
    | some r =>
      rw [hw] at hrun
      simp only [Option.some.injEq] at hrun
      subst hrun
      simp only [sysv_shm_write, sysv_shm_attach, sysv_shm_detach, memcpy_to, Kernel] at hw
      by_cases ha : (k_shmat shm_id NULL 0 s).1 = PTR_INVALID 64
      · simp only [ha, if_true, Option.some.injEq] at hw
        subst hw
        exact hat _ _ hs
      · simp only [ha, if_false] at hw
        by_cases hn : size_t_of_int 64 len ≤ input.length
        · simp only [hn, if_true] at hw
          cases hst1 : k_store (ptr_add 64 (k_shmat shm_id NULL 0 s).1 offset)
              (List.take (size_t_of_int 64 len) input) (k_shmat shm_id NULL 0 s).2 with
          | none => rw [hst1] at hw; exact absurd hw (by simp)
          | some s2 =>
            rw [hst1] at hw
            simp only [Option.some.injEq] at hw
            subst hw
            exact hdt _ _ (hst _ _ _ _ hst1 (hat _ _ hs))
        · simp only [hn, if_false] at hw
          exact absurd hw (by simp)
  | read shm_id output len offset =>
    simp only [Op.run] at hrun
    cases hw : sysv_shm_read (Kernel lim) shm_id output len offset s with
    | none => rw [hw] at hrun; exact absurd hrun (by simp)
    | some r =>
      rw [hw] at hrun
      simp only [Option.some.injEq] at hrun
      subst hrun
      simp only [sysv_shm_read, sysv_shm_attach, sysv_shm_detach, memcpy_from, Kernel] at hw
      by_cases ha : (k_shmat shm_id NULL 0 s).1 = PTR_INVALID 64
      · simp only [ha, if_true, Option.some.injEq] at hw
        subst hw
        exact hat _ _ hs
      · simp only [ha, if_false] at hw
        by_cases hn : size_t_of_int 64 len ≤ output.length
        · simp only [hn, if_true] at hw
          cases hst1 : k_load (ptr_add 64 (k_shmat shm_id NULL 0 s).1 offset)
              (size_t_of_int 64 len) (k_shmat shm_id NULL 0 s).2 with
          | none => rw [hst1] at hw; exact absurd hw (by simp)
          | some p =>
            obtain ⟨bytes, s2⟩ := p
            rw [hst1] at hw
            simp only [Option.some.injEq] at hw
            subst hw
            have e := k_load_frame hst1
            subst e
            exact hdt _ _ (hat _ _ hs)
        · simp only [hn, if_false] at hw
          exact absurd hw (by simp)
  | lock shm_id =>
    simp only [Op.run, Option.some.injEq] at hrun
    subst hrun
    exact hctl _ _ _ (fun h => absurd h (by decide)) hs
  | unlock shm_id =>
    simp only [Op.run, Option.some.injEq] at hrun
    subst hrun
    exact hctl _ _ _ (fun h => absurd h (by decide)) hs
  | close shm_id =>
    simp only [Op.run, Option.some.injEq] at hrun
    subst hrun
    exact hctl _ _ _ (fun _ => hop shm_id rfl) hs
  | get_size shm_id =>
    simp only [Op.run, Option.some.injEq] at hrun
    subst hrun
    simp only [sysv_shm_get_size, Kernel]
    split <;> exact hctl _ _ _ (fun h => absurd h (by decide)) hs

theorem run_ops_preserves (lim : Limits) (Inv : KState → Prop) (ops : List Op)
    (hstep : ∀ op, op ∈ ops → ∀ s s1, Op.run (Kernel lim) op s = some s1 → Inv s → Inv s1) :
    ∀ s s1, run_ops (Kernel lim) ops s = some s1 → Inv s → Inv s1 := by
  induction ops with
  | nil =>
    intro s s1 h hs
    simp only [run_ops, Option.some.injEq] at h
    subst h
    exact hs
  | cons op ops ih =>
    intro s s1 h hs
    simp only [run_ops] at h
    cases ho : op.run (Kernel lim) s with
    | none => rw [ho] at h; exact absurd h (by simp)
    | some s2 =>
      rw [ho] at h
      exact ih (fun o ho1 => hstep o (List.mem_cons_of_mem _ ho1)) s2 s1 h
        (hstep op (List.mem_cons_self _ _) s s2 ho hs)

/-! ## After the removal -/

theorem shmid_of_mem_modify_seg {f : Segment → Segment} (hf : ∀ x, (f x).shmid = x.shmid)
    (other : Int) {segs : List Segment} {g : Segment} (h : g ∈ modify_seg other f segs) :
    ∃ g0 ∈ segs, g.shmid = g0.shmid := by
  induction segs with
  | nil => simp [modify_seg] at h
  | cons x xs ih =>
    by_cases hx : x.shmid = other
    · simp only [modify_seg, hx, if_true, List.mem_cons] at h
      rcases h with h | h
      · exact ⟨x, List.mem_cons_self _ _, by rw [h, hf]⟩
      · exact ⟨g, List.mem_cons_of_mem _ h, rfl⟩
    · simp only [modify_seg, hx, if_false, List.mem_cons] at h
      rcases h with h | h
      · exact ⟨x, List.mem_cons_self _ _, by rw [h]⟩
      · obtain ⟨g0, hg0, e⟩ := ih h
        exact ⟨g0, List.mem_cons_of_mem _ hg0, e⟩

theorem ids_fresh_modify {f : Segment → Segment} (hf : ∀ x, (f x).shmid = x.shmid)
    (other : Int) {s : KState} (h : ids_fresh s) :
    ids_fresh ⟨modify_seg other f s.segs, s.maps, s.next_id⟩ := by
  intro g hg
  obtain ⟨g0, hg0, e⟩ := shmid_of_mem_modify_seg hf other hg
  rw [e]
  exact h g0 hg0

theorem ids_fresh_filter (p : Segment → Bool) {s : KState} (h : ids_fresh s) :
    ids_fresh ⟨s.segs.filter p, s.maps, s.next_id⟩ :=
  fun g hg => h g (List.mem_of_mem_filter hg)

theorem ids_fresh_shmget (lim : Limits) (key size flg : Int) (s : KState) (h : ids_fresh s) :
    ids_fresh (k_shmget lim key size flg s).2 := by
  have hcreate : ∀ sz, ids_fresh (k_create lim key sz flg s).2 := by
    intro sz
    unfold k_create
    split
    · exact h
    · split
      · exact h
      · intro g hg
        show g.shmid < ((s.next_id + 1 : Nat) : Int)
        have hg1 : g ∈ _ :: s.segs := hg
        rw [List.mem_cons] at hg1
        rcases hg1 with e | hm
        · rw [e]
          show (s.next_id : Int) < _
          omega
        · have := h g hm
          omega
  unfold k_shmget
  simp only
  split
  · exact hcreate _
  · split
    · split
      · exact h
      · split
        · exact h
        · exact h
    · split
      · exact hcreate _
      · exact h

theorem ids_fresh_shmat (other : Int) (s : KState) (h : ids_fresh s) :
    ids_fresh (k_shmat other NULL 0 s).2 := by
  rcases k_shmat_cases other s with hf | ⟨g, c, _, _, hs⟩
  · rw [hf]; exact h
  · rw [hs]; exact h

theorem ids_fresh_shmdt (a : Nat) (s : KState) (h : ids_fresh s) :
    ids_fresh (k_shmdt a s).2 := by
  unfold k_shmdt
  split
  · exact h
  · simp only
    split
    · exact h
    · split
      · exact ids_fresh_filter _ h
      · exact h

theorem ids_fresh_shmctl (lim : Limits) (other cmd : Int) (s : KState) (h : ids_fresh s) :
    ids_fresh (k_shmctl lim other cmd s).2.2 := by
  unfold k_shmctl
  split
  · exact h
  · split
    · exact h
    · split
      · split
        · exact ids_fresh_filter _ h
        · apply ids_fresh_modify _ _ h; intro x; rfl
      · split
        · split
          · apply ids_fresh_modify _ _ h; intro x; rfl
          · exact h
        · split
          · split
            · apply ids_fresh_modify _ _ h; intro x; rfl
            · exact h
          · exact h

theorem ids_fresh_store (dst : Nat) (bytes : List Byte) (s s1 : KState)
    (hst : k_store dst bytes s = some s1) (h : ids_fresh s) : ids_fresh s1 := by
  unfold k_store at hst
  split at hst
  · exact absurd hst (by simp)
  · split at hst
    · exact absurd hst (by simp)
    · split at hst
      · simp only [Option.some.injEq] at hst
        subst hst
        apply ids_fresh_modify _ _ h; intro x; rfl
      · exact absurd hst (by simp)

/-- Every state reached from boot by calls of the functions of `shm.c` has its
identifiers below the next identifier. -/
theorem ids_fresh_reachable (lim : Limits) (ops : List Op) (s : KState)
    (h : run_ops (Kernel lim) ops boot = some s) : ids_fresh s := by
  have hstep := run_preserves lim ids_fresh (fun _ => True)
    (fun key size flg st h1 => ids_fresh_shmget lim key size flg st h1)
    (fun other st h1 => ids_fresh_shmat other st h1)
    (fun a st h1 => ids_fresh_shmdt a st h1)
    (fun other cmd st _ h1 => ids_fresh_shmctl lim other cmd st h1)
    (fun dst bytes st st1 hst h1 => ids_fresh_store dst bytes st st1 hst h1)
  exact run_ops_preserves lim ids_fresh ops (fun op _ => hstep op (fun _ _ => trivial)) boot s h
    (fun g hg => absurd hg (by simp [boot]))

theorem find?_filter_keep {p q : Segment → Bool} {segs : List Segment} {g : Segment}
    (h : segs.find? p = some g) (hq : q g = true) : (segs.filter q).find? p = some g := by
  induction segs with
  | nil => simp at h
  | cons x xs ih =>
    rw [List.find?_cons] at h
    cases hp : p x with
    | true =>
      rw [hp] at h
      simp only [Option.some.injEq] at h
      subst h
      simp [List.filter_cons, hq, hp]
    | false =>
      rw [hp] at h
      cases hqx : q x with
      | true => simp [List.filter_cons, hqx, hp, ih h]
      | false => simp [List.filter_cons, hqx, ih h]

theorem find?_modify_keep {p : Segment → Bool} {f : Segment → Segment} {other : Int}
    {segs : List Segment} {g : Segment} (h : segs.find? p = some g) (hne : g.shmid ≠ other)
    (hp : ∀ x, x.shmid = other → p (f x) = true → p x = true) :
    (modify_seg other f segs).find? p = some g := by
  induction segs with
  | nil => simp at h
  | cons x xs ih =>
    rw [List.find?_cons] at h
    by_cases hx : x.shmid = other
    · simp only [modify_seg, hx, if_true]
      cases hpx : p x with
      | true =>
        rw [hpx] at h
        simp only [Option.some.injEq] at h
        subst h
        exact absurd hx hne
      | false =>
        rw [hpx] at h
        have : p (f x) = false := by
          cases hpf : p (f x) with
          | false => rfl
          | true => rw [hp x hx hpf] at hpx; exact absurd hpx (by simp)
        rw [List.find?_cons, this]
        exact h
    · simp only [modify_seg, hx, if_false]
      rw [List.find?_cons]
      cases hpx : p x with
      | true =>
        rw [hpx] at h
        exact h
      | false =>
        rw [hpx] at h
        exact ih h

theorem find?_modify_hit {p : Segment → Bool} {f : Segment → Segment} {shmid : Int}
    {segs : List Segment} {g : Segment} (h : segs.find? p = some g)
    (hq : find_seg segs shmid = some g) (hpf : p (f g) = true) :
    (modify_seg shmid f segs).find? p = some (f g) := by
  induction segs with
  | nil => simp at h
  | cons x xs ih =>
    unfold find_seg at hq ih
    rw [List.find?_cons] at h hq
    by_cases hx : x.shmid = shmid
    · simp only [hx, decide_True, Option.some.injEq] at hq
      subst hq
      simp only [modify_seg, hx, if_true]
      rw [List.find?_cons, hpf]
    · simp only [hx, decide_False] at hq
      have hgid : g.shmid = shmid := by simpa using List.find?_some hq
      simp only [modify_seg, hx, if_false]
      rw [List.find?_cons]
      cases hpx : p x with
      | true =>
        rw [hpx] at h
        simp only [Option.some.injEq] at h
        subst h
        exact absurd hgid hx
      | false =>
        rw [hpx] at h
        exact ih h hq

/-- Changing the lock or the bytes of a segment keeps a registration. -/
theorem registered_modify {key shmid other : Int} {f : Segment → Segment} {s : KState}
    (hid : ∀ x, (f x).shmid = x.shmid) (hkey : ∀ x, (f x).key = x.key)
    (hdest : ∀ x, (f x).dest = x.dest) (h : registered key shmid s) :
    registered key shmid ⟨modify_seg other f s.segs, s.maps, s.next_id⟩ := by
  obtain ⟨g, hk, hs, hd, hn⟩ := h
  have hgid : g.shmid = shmid := by
    unfold find_seg at hs
    simpa using List.find?_some hs
  have hgkey : g.key = key := by
    unfold find_key at hk
    simpa using List.find?_some hk
  by_cases ho : other = shmid
  · subst ho
    refine ⟨f g, ?_, find_seg_modify_same hid hs, by rw [hdest]; exact hd, hn⟩
    unfold find_key at hk ⊢
    exact find?_modify_hit hk hs (by simp [hkey, hgkey])
  · refine ⟨g, ?_, ?_, hd, hn⟩
    · unfold find_key at hk ⊢
      apply find?_modify_keep hk (by rw [hgid]; exact fun e => ho e.symm)
      intro x _ hx
      simpa [hkey] using hx
    · rw [find_seg_modify_other hid s.segs (fun e => ho e.symm)]
      exact hs

/-- Destroying the segments of another identifier keeps a registration. -/
theorem registered_filter {key shmid other : Int} {s : KState} (hne : other ≠ shmid)
    (h : registered key shmid s) :
    registered key shmid
      ⟨s.segs.filter (fun g1 => decide (g1.shmid ≠ other)), s.maps, s.next_id⟩ := by
  obtain ⟨g, hk, hs, hd, hn⟩ := h
  have hgid : g.shmid = shmid := by
    unfold find_seg at hs
    simpa using List.find?_some hs
  have hq : (fun g1 : Segment => decide (g1.shmid ≠ other)) g = true := by
    simp only [ne_eq, decide_not, Bool.not_eq_true', decide_eq_false_iff_not]
    rw [hgid]
    exact fun e => hne e.symm
  refine ⟨g, ?_, ?_, hd, hn⟩
  · unfold find_key at hk ⊢
    exact find?_filter_keep hk hq
  · unfold find_seg at hs ⊢
    exact find?_filter_keep hs hq

theorem registered_create (lim : Limits) (key shmid ckey : Int) (sz : Nat) (flg : Int)
    (s : KState) (hne : ckey ≠ key) (h : registered key shmid s) :
    registered key shmid (k_create lim ckey sz flg s).2 := by
  unfold k_create
  split
  · exact h
  · split
    · exact h
    · obtain ⟨g, hk, hs, hd, hn⟩ := h
      have hid : ¬ (s.next_id : Int) = shmid := by omega
      refine ⟨g, ?_, ?_, hd, ?_⟩
      · show find_key (_ :: s.segs) key = some g
        unfold find_key at hk ⊢
        rw [List.find?_cons]
        simp only [hne, decide_False]
        exact hk
      · show find_seg (_ :: s.segs) shmid = some g
        unfold find_seg at hs ⊢
        rw [List.find?_cons]
        simp only [hid, decide_False]
        exact hs
      · show shmid < ((s.next_id + 1 : Nat) : Int)
        omega

theorem registered_shmget (lim : Limits) (key shmid ckey size flg : Int) (s : KState)
    (hk : key ≠ IPC_PRIVATE) (h : registered key shmid s) :
    registered key shmid (k_shmget lim ckey size flg s).2 := by
  unfold k_shmget
  simp only
  by_cases hc : ckey = IPC_PRIVATE
  · rw [if_pos hc]
    exact registered_create lim key shmid ckey _ flg s (by rw [hc]; exact fun e => hk e.symm) h
  · rw [if_neg hc]
    cases hf : find_key s.segs ckey with
    | some g1 =>
      simp only
      split
      · exact h
      · split
        · exact h
        · exact h
    | none =>
      simp only
      split
      · apply registered_create lim key shmid ckey _ flg s _ h
        intro e
        obtain ⟨g, hg, _⟩ := h
        rw [e, hg] at hf
        exact absurd hf (by simp)
      · exact h

theorem registered_shmat (key shmid other : Int) (s : KState) (h : registered key shmid s) :
    registered key shmid (k_shmat other NULL 0 s).2 := by
  rcases k_shmat_cases other s with hf | ⟨g, c, _, _, hs⟩
  · rw [hf]; exact h
  · rw [hs]; exact h

theorem registered_shmdt (key shmid : Int) (a : Nat) (s : KState) (h : registered key shmid s) :
    registered key shmid (k_shmdt a s).2 := by
  unfold k_shmdt
  cases hm : s.maps.find? (fun m => decide (m.base = a)) with
  | none => exact h
  | some m =>
    simp only
    cases hg : find_seg s.segs m.shmid with
    | none => exact h
    | some g1 =>
      simp only
      by_cases hd : g1.dest = true ∧
          nattch (s.maps.filter (fun m1 => decide (m1.base ≠ a))) m.shmid = 0
      · rw [if_pos hd]
        have hne : m.shmid ≠ shmid := by
          intro e
          obtain ⟨g, _, hs, hdg, _⟩ := h
          rw [e, hs] at hg
          simp only [Option.some.injEq] at hg
          rw [← hg, hdg] at hd
          exact absurd hd.1 (by simp)
        exact registered_filter hne h
      · rw [if_neg hd]
        exact h

theorem registered_shmctl (lim : Limits) (key shmid other cmd : Int) (s : KState)
    (hkp : key ≠ IPC_PRIVATE) (hrm : cmd = IPC_RMID → other ≠ shmid)
    (h : registered key shmid s) :
    registered key shmid (k_shmctl lim other cmd s).2.2 := by
  unfold k_shmctl
  cases hg : find_seg s.segs other with
  | none => exact h
  | some g1 =>
    simp only
    split
    · exact h
    · split
      · rename_i hc
        have hne := hrm hc
        split
        · exact registered_filter hne h
        · obtain ⟨g, hk, hs, hd, hn⟩ := h
          have hgid : g.shmid = shmid := by
            unfold find_seg at hs
            simpa using List.find?_some hs
          refine ⟨g, ?_, ?_, hd, hn⟩
          · unfold find_key at hk ⊢
            apply find?_modify_keep hk (by rw [hgid]; exact fun e => hne e.symm)
            intro x _ hx
            simp only [decide_eq_true_eq] at hx
            exact absurd hx.symm hkp
          · show find_seg (modify_seg other _ s.segs) shmid = some g
            rw [← hs]
            apply find_seg_modify_other _ s.segs (fun e => hne e.symm)
            intro x
            rfl
      · split
        · split
          · exact registered_modify (fun _ => rfl) (fun _ => rfl) (fun _ => rfl) h
          · exact h
        · split
          · split
            · exact registered_modify (fun _ => rfl) (fun _ => rfl) (fun _ => rfl) h
            · exact h
          · exact h

theorem registered_store (key shmid : Int) (dst : Nat) (bytes : List Byte) (s s1 : KState)
    (hst : k_store dst bytes s = some s1) (h : registered key shmid s) :
    registered key shmid s1 := by
  unfold k_store at hst
  split at hst
  · exact absurd hst (by simp)
  · split at hst
    · exact absurd hst (by simp)
    · split at hst
      · simp only [Option.some.injEq] at hst
        subst hst
        exact registered_modify (fun _ => rfl) (fun _ => rfl) (fun _ => rfl) h
      · exact absurd hst (by simp)

/-! ## Lookup by key -/

theorem size_t_of_int_zero : size_t_of_int 64 0 = 0 := by decide

/-- The lookup `shmget(key, 0, 0)` on the reference system. -/
theorem k_shmget_lookup (lim : Limits) (key : Int) (ks : KState) :
    k_shmget lim key 0 0 ks =
      (if key = IPC_PRIVATE then -1
       else match find_key ks.segs key with
         | none => -1
         | some g => g.shmid, ks) := by
  have hl : Int.land 0 IPC_CREAT = 0 := by decide
  unfold k_shmget
  simp only [size_t_of_int_zero]
  by_cases hk : key = IPC_PRIVATE
  · simp [hk, k_create, SHMMIN]
  · simp only [hk, if_false, hl, ne_eq, not_true_eq_false, false_and, if_false]
    cases find_key ks.segs key with
    | none => rfl
    | some g => simp

/-- A call of `shmget` under a key other than `IPC_PRIVATE` that returns an
identifier leaves the segment of that identifier registered under the key. -/
theorem k_shmget_registered (lim : Limits) (key size shmflg : Int) (ks : KState)
    (hk : key ≠ IPC_PRIVATE) (hr : (k_shmget lim key size shmflg ks).1 ≠ -1) :
    ∃ g, find_key (k_shmget lim key size shmflg ks).2.segs key = some g ∧
      g.shmid = (k_shmget lim key size shmflg ks).1 := by
  have hcreate : ∀ sz, (k_create lim key sz shmflg ks).1 ≠ -1 →
      ∃ g, find_key (k_create lim key sz shmflg ks).2.segs key = some g ∧
        g.shmid = (k_create lim key sz shmflg ks).1 := by
    intro sz h
    unfold k_create at h ⊢
    by_cases c1 : sz < SHMMIN ∨ lim.shmmax < sz
    · simp [c1] at h
    · by_cases c2 : lim.shmmni ≤ ks.segs.length
      · simp [c1, c2] at h
      · simp only [c1, c2, if_false, find_key, List.find?_cons, decide_True]
        exact ⟨_, rfl, rfl⟩
  unfold k_shmget at hr ⊢
  simp only [hk, if_false] at hr ⊢
  cases hf : find_key ks.segs key with
  | some g =>
    simp only [hf] at hr ⊢
    by_cases c1 : Int.land shmflg IPC_CREAT ≠ 0 ∧ Int.land shmflg IPC_EXCL ≠ 0
    · simp [c1] at hr
    · by_cases c2 : g.data.length < size_t_of_int 64 size
      · simp [c1, c2] at hr
      · simp only [c1, c2, if_false]
        exact ⟨g, hf, rfl⟩
  | none =>
    simp only [hf] at hr ⊢
    by_cases c1 : Int.land shmflg IPC_CREAT ≠ 0
    · rw [if_pos c1] at hr ⊢
      exact hcreate _ hr
    · simp [c1] at hr

/-- A call of `shmget` that creates the segment of a key leaves it registered. -/
theorem created_registered (lim : Limits) (key size shmflg : Int) (ks : KState)
    (hk : key ≠ IPC_PRIVATE) (hnone : find_key ks.segs key = none)
    (hr : (k_shmget lim key size shmflg ks).1 ≠ -1) :
    registered key (k_shmget lim key size shmflg ks).1 (k_shmget lim key size shmflg ks).2 := by
  unfold k_shmget at hr ⊢
  simp only [hk, if_false, hnone] at hr ⊢
  by_cases c1 : Int.land shmflg IPC_CREAT ≠ 0
  · rw [if_pos c1] at hr ⊢
    unfold k_create at hr ⊢
    by_cases c2 : size_t_of_int 64 size < SHMMIN ∨ lim.shmmax < size_t_of_int 64 size
    · simp [c2] at hr
    · by_cases c3 : lim.shmmni ≤ ks.segs.length
      · simp [c2, c3] at hr
      · simp only [c2, c3, if_false]
        refine ⟨⟨(ks.next_id : Int), key, Int.land shmflg 0o777, false, false,
          List.replicate (size_t_of_int 64 size) 0⟩, ?_, ?_, rfl, ?_⟩
        · simp only [find_key, List.find?_cons, decide_True]
        · simp only [find_seg, List.find?_cons, decide_True]
        · show (ks.next_id : Int) < ((ks.next_id + 1 : Nat) : Int)
          omega
  · simp [c1] at hr

/-- C5, for keys other than `IPC_PRIVATE` in its last part:
`sysv_shm_open_with_key(key, 0, flags, perm)` issues the single call
`shmget(key, 0, 0)` whatever `flags` and `perm` are; on the reference system
it leaves the state unchanged (creates nothing), returns `-1` when no segment
is registered under `key` and always when `key` is `IPC_PRIVATE`, and for
another key returns the identifier of the segment registered under it: right
after a call under that key that returned an identifier it returns the same
identifier, and so it does after the call that created the segment and any
sequence of calls that does not remove it. -/
theorem lookup_with_size_zero {σ : Type} (os : Sys σ) (lim : Limits) (key flags perm : Int)
    (s : σ) (tr : List Ev) (ks : KState) :
    sysv_shm_open_with_key os key 0 flags perm s = os.shmget key 0 0 s ∧
    (sysv_shm_open_with_key (traced os) key 0 flags perm (s, tr)).2.2
      = tr ++ [Ev.shmget key 0 0 (os.shmget key 0 0 s).1] ∧
    (sysv_shm_open_with_key (Kernel lim) key 0 flags perm ks).2 = ks ∧
    (find_key ks.segs key = none →
      (sysv_shm_open_with_key (Kernel lim) key 0 flags perm ks).1 = -1) ∧
    (key = IPC_PRIVATE →
      (sysv_shm_open_with_key (Kernel lim) key 0 flags perm ks).1 = -1) ∧
    (key ≠ IPC_PRIVATE → ∀ g, find_key ks.segs key = some g →
      (sysv_shm_open_with_key (Kernel lim) key 0 flags perm ks).1 = g.shmid) ∧
    (key ≠ IPC_PRIVATE → ∀ size cflags cperm,
      (sysv_shm_open_with_key (Kernel lim) key size cflags cperm ks).1 ≠ -1 →
      sysv_shm_open_with_key (Kernel lim) key 0 flags perm
          (sysv_shm_open_with_key (Kernel lim) key size cflags cperm ks).2
        = sysv_shm_open_with_key (Kernel lim) key size cflags cperm ks) ∧
    (key ≠ IPC_PRIVATE → ∀ size cflags cperm ops s1,
      find_key ks.segs key = none →
      (sysv_shm_open_with_key (Kernel lim) key size cflags cperm ks).1 ≠ -1 →
      Op.close (sysv_shm_open_with_key (Kernel lim) key size cflags cperm ks).1 ∉ ops →
      run_ops (Kernel lim) ops (sysv_shm_open_with_key (Kernel lim) key size cflags cperm ks).2
        = some s1 →
      sysv_shm_open_with_key (Kernel lim) key 0 flags perm s1
        = ((sysv_shm_open_with_key (Kernel lim) key size cflags cperm ks).1, s1)) := by
  have hk : ∀ st, sysv_shm_open_with_key (Kernel lim) key 0 flags perm st
      = k_shmget lim key 0 0 st := by
    intro st
    simp [sysv_shm_open_with_key, Kernel]
  have hw : ∀ size cflags cperm st,
      sysv_shm_open_with_key (Kernel lim) key size cflags cperm st
        = k_shmget lim key size
            (if size ≠ 0 then Int.lor cflags (if cperm = 0 then 0o600 else cperm) else 0) st := by
    intro size cflags cperm st
    by_cases hz : size = 0 <;> simp [sysv_shm_open_with_key, Kernel, hz]
  refine ⟨?_, ?_, ?_, ?_, ?_, ?_, ?_, ?_⟩
  · simp [sysv_shm_open_with_key]
  · simp [sysv_shm_open_with_key, traced]
  · rw [hk, k_shmget_lookup]
  · intro hn
    rw [hk, k_shmget_lookup]
    by_cases c : key = IPC_PRIVATE <;> simp [c, hn]
  · intro c
    rw [hk, k_shmget_lookup]
    simp [c]
  · intro c g hg
    rw [hk, k_shmget_lookup]
    simp [c, hg]
  · intro c size cflags cperm hr
    rw [hw size cflags cperm ks] at hr ⊢
    obtain ⟨g, hg, hid⟩ := k_shmget_registered lim key size _ ks c hr
    rw [hk, k_shmget_lookup]
    simp only [c, if_false, hg, hid]
  · intro c size cflags cperm ops s1 hnone hr hnc hrun
    rw [hw size cflags cperm ks] at hr hnc hrun ⊢
    have h0 := created_registered lim key size _ ks c hnone hr
    generalize (k_shmget lim key size
      (if size ≠ 0 then Int.lor cflags (if cperm = 0 then 0o600 else cperm) else 0) ks).1 = id0
      at h0 hnc hr ⊢
    have hstep := run_preserves lim (registered key id0) (fun i => i ≠ id0)
      (fun ckey csize flg st h => registered_shmget lim key id0 ckey csize flg st c h)
      (fun other st h => registered_shmat key id0 other st h)
      (fun a st h => registered_shmdt key id0 a st h)
      (fun other cmd st hrm h => registered_shmctl lim key id0 other cmd st c hrm h)
      (fun dst bytes st st1 hst h => registered_store key id0 dst bytes st st1 hst h)
    have h1 := run_ops_preserves lim (registered key id0) ops
      (fun op hop => hstep op (fun i e hi => hnc (by rw [← hi, ← e]; exact hop))) _ s1 hrun h0
    obtain ⟨g, hg, hs, _, _⟩ := h1
    have hgid : g.shmid = id0 := by
      unfold find_seg at hs
      simpa using List.find?_some hs
    rw [hk, k_shmget_lookup]
    simp only [c, if_false, hg, hgid]

/-- C5 on the reference system: the key `5` is looked up before a segment is
created under it, and after the creation and three more calls. -/
theorem lookup_with_size_zero_witness :
    sysv_shm_open_with_key (Kernel lim0) 5 0 IPC_CREAT 0o666 boot = (-1, boot) ∧
    find_key boot.segs 5 = none ∧
    sysv_shm_open_with_key (Kernel lim0) 5 4 IPC_CREAT 0 boot = (0, st_key) ∧
    run_ops (Kernel lim0) [Op.open_private 4 0 0, Op.write 0 [7] 1 0, Op.close 1] st_key
      = some st_key_later ∧
    sysv_shm_open_with_key (Kernel lim0) 5 0 IPC_CREAT 0o666 st_key_later = (0, st_key_later) :=
  ⟨by decide, by decide, by decide, by decide,
   (lookup_with_size_zero (Kernel lim0) lim0 5 IPC_CREAT 0o666 boot [] boot).2.2.2.2.2.2.2
     (by decide) 4 IPC_CREAT 0 [Op.open_private 4 0 0, Op.write 0 [7] 1 0, Op.close 1]
     st_key_later (by decide) (by decide) (by decide) (by decide)⟩

/-- C5 as stated fails at the key `IPC_PRIVATE`: a segment is created under
it with identifier `0` and is not removed, and the lookup returns `-1`. -/
theorem lookup_private_key_fails :
    sysv_shm_open_with_key (Kernel lim0) IPC_PRIVATE 4 IPC_CREAT 0 boot = (0, st1) ∧
    sysv_shm_open_with_key (Kernel lim0) IPC_PRIVATE 0 0 0 st1 = (-1, st1) := by
  decide


end Shm
